import Mathlib

/-!
Verification development for the ersa relationship-estimation program.

The Python source is shallowly embedded here:
  * `ersa/mask.py`    → namespace `Mask`
  * `ersa/parser.py`  → namespace `Parser`
  * `ersa/chisquare.py` and `ersa/ersa_LL.py` → namespace `LL`

Python floats are modelled by `ℚ`; the transcendental library functions
(`math.log`, `math.exp`, `math.log1p`, `scipy.stats.chi2.cdf`) and the
external `inflect` word engine are abstracted as parameters bundled in
`MathPrims`, since they are library calls external to this repository.
Fallible code (Python `assert`, exceptions) is modelled with
`Except String`.
-/

/-- Abstract stand-ins for the external math library functions used by the
source (`math.log`, `math.exp`, `math.log1p`, `scipy.stats.chi2.cdf`) and
for `inflect.engine().number_to_words`.  All structural theorems below hold
for every interpretation of these primitives. -/
structure MathPrims where
  log : ℚ → ℚ
  exp : ℚ → ℚ
  log1p : ℚ → ℚ
  chi2cdf : ℚ → ℕ → ℚ
  numToWords : ℕ → String

namespace Mask

/-- Genomic region of `ersa/mask.py`: a triple `(low, high, mask_cm)`. -/
structure Region where
  lo : ℤ
  hi : ℤ
  cm : ℚ
deriving DecidableEq, Repr

/-- `b` of `ersa/mask.py`: regions must extend this far beyond each end of a
masked region. -/
def b : ℤ := 1 * 10 ^ 6

/-- The fixed `masked` table of `ersa/mask.py`, index = chromosome 0..22;
each per-chromosome list holds its rows in the append (source line) order. -/
def maskedTable : List (List Region) :=
  [ [],                                                 -- 0
    [⟨118434520, 153401108, 9.95⟩],                     -- 1
    [⟨85304243, 99558013, 6.53⟩, ⟨132695025, 141442636, 9.16⟩,
     ⟨192352906, 198110229, 5.04⟩],                     -- 2
    [], [], [], [], [],                                 -- 3..7
    [⟨10428647, 13469693, 7.96⟩],                       -- 8
    [⟨38293483, 72605261, 8.15⟩],                       -- 9
    [⟨44555093, 53240188, 7.58⟩],                       -- 10
    [], [], [], [],                                     -- 11..14
    [⟨20060673, 25145260, 10.46⟩, ⟨27115823, 30295750, 9.29⟩],  -- 15
    [⟨19393068, 24031556, 6.18⟩],                       -- 16
    [⟨77186666, 78417478, 5.66⟩, ⟨59518083, 64970531, 6.23⟩],   -- 17
    [], [], [],                                         -- 18..20
    [⟨16344186, 19375168, 6.91⟩],                       -- 21
    [⟨16051881, 25095451, 20.82⟩] ]                     -- 22

/-- `masked[c]` of the source.  Python raises `IndexError` for `c ≥ 23` and
wraps around for negative `c`; theorems about masking therefore carry the
hypothesis `0 ≤ c < 23`, where this model agrees with the source. -/
def maskedRegions (c : ℤ) : List Region :=
  if 0 ≤ c ∧ c < 23 then maskedTable.getD c.toNat [] else []

/-- `total_masked()` of `ersa/mask.py`: sum of the mean masked cM values of
every row of the table. -/
def total_masked : ℚ :=
  (maskedTable.map (fun c => (c.map Region.cm).sum)).sum

/-- Round-half-to-even on an exact rational, the behaviour of Python 3
`round(x, n)` on an exactly-representable value: the nearest integer, ties
going to the even neighbour. -/
def rhe (y : ℚ) : ℤ :=
  let f : ℤ := ⌊y⌋
  if 2 * (y - f) < 1 then f
  else if 1 < 2 * (y - f) then f + 1
  else if f % 2 = 0 then f else f + 1

/-- Python `round(x, 2)` on the rational model. -/
def pyRound2 (q : ℚ) : ℚ := (rhe (q * 100) : ℚ) / 100

end Mask

namespace Parser

/-- `SharedSegment` of `ersa/parser.py`, restricted to the fields that the
masking / merging / likelihood pipeline reads (`chrom`, `bpStart`, `bpEnd`,
`length`).  Identifier and unit fields play no role in the claims. -/
structure Seg where
  chrom : ℤ
  bpStart : ℤ
  bpEnd : ℤ
  length : ℚ
deriving DecidableEq, Repr

end Parser

namespace Mask

open Parser

/-- One iteration of the region loop of `mask_input_segs` applied to a
single region: `some` of the adjusted segment when one of the four guarded
cases fires (the source then `break`s), `none` when the segment falls
through to the next region.  Guards appear in the source order. -/
def applyRegion (s : Seg) (r : Region) : Option Seg :=
  if s.bpStart > r.lo - b ∧ s.bpEnd < r.hi + b then
    -- fully inside the buffered region: length zeroed
    some { s with length := 0 }
  else if s.bpStart ≤ r.lo - b ∧ s.bpEnd ≥ r.hi + b then
    -- spans the whole buffered region: subtract mask_cm, keep coordinates
    some { s with length := s.length - r.cm }
  else if r.lo ≤ s.bpStart ∧ s.bpStart ≤ r.hi ∧ r.hi < s.bpEnd then
    -- truncate, changing start
    some { s with
           length := pyRound2 (s.length *
             (((s.bpEnd - r.hi : ℤ) : ℚ) / ((s.bpEnd - s.bpStart : ℤ) : ℚ)))
           bpStart := r.hi }
  else if r.hi ≥ s.bpEnd ∧ s.bpEnd ≥ r.lo ∧ r.lo > s.bpStart then
    -- truncate, changing end
    some { s with
           length := pyRound2 (s.length *
             (((r.lo - s.bpStart : ℤ) : ℚ) / ((s.bpEnd - s.bpStart : ℤ) : ℚ)))
           bpEnd := r.lo }
  else
    none

/-- The inner `for r in regions` loop of `mask_input_segs`: the first region
whose guard fires adjusts the segment and the loop `break`s; otherwise the
segment is returned unchanged. -/
def applyRegions (s : Seg) : List Region → Seg
  | [] => s
  | r :: rs =>
    match applyRegion s r with
    | some s' => s'
    | none => applyRegions s rs

/-- `mask_input_segs(segs, t)` of `ersa/mask.py`: adjust every segment by
the first matching region of its chromosome, then keep those with
`length ≥ t`. -/
def mask_input_segs (segs : List Seg) (t : ℚ) : List Seg :=
  (segs.map (fun s => applyRegions s (maskedRegions s.chrom))).filter
    (fun s => t ≤ s.length)

end Mask

namespace Parser

/-- The merging walk of `merge_segments` over one chromosome's
start-sorted segment list.  `cur` plays the role of the `new` variable:
when the base-pair gap to the next original segment exceeds `merge_len`
the accumulated segment is flushed, otherwise the next segment is absorbed
(end coordinate replaced, lengths summed).  The precomputed `diffs[i]`
of the source equals `nxt.bpStart - cur.bpEnd` here because absorption
copies the absorbed segment's original `bpEnd` into `cur`, and the final
`diffs.append(maxsize)` entry (with `merge_len < maxsize` asserted by the
source) corresponds to the unconditional flush at `[]`. -/
def mergeWalk (merge_len : ℤ) : Seg → List Seg → List Seg
  | cur, [] => [cur]
  | cur, nxt :: rest =>
    if nxt.bpStart - cur.bpEnd > merge_len then
      cur :: mergeWalk merge_len nxt rest
    else
      mergeWalk merge_len
        { cur with bpEnd := nxt.bpEnd, length := cur.length + nxt.length } rest

/-- Per-chromosome body of `merge_segments`. -/
def mergeChrom (merge_len : ℤ) : List Seg → List Seg
  | [] => []
  | s :: rest => mergeWalk merge_len s rest

/-- First-occurrence deduplication, the key order of a Python dict built by
insertion. -/
def firstKeys : List ℤ → List ℤ
  | [] => []
  | c :: rest => c :: (firstKeys rest).filter (fun x => x ≠ c)

/-- The `s_by_chrom` grouping of `merge_segments`: keys in first-occurrence
order, each key mapped to the subsequence of segments on that chromosome
(Python appends each segment to its key's list, preserving input order). -/
def groupByChrom (segs : List Seg) : List (ℤ × List Seg) :=
  (firstKeys (segs.map Seg.chrom)).map
    (fun c => (c, segs.filter (fun s => s.chrom = c)))

/-- `merge_segments(segs, merge_len)` of `ersa/parser.py`: group by
chromosome, sort each group by `bpStart` (Python `list.sort`, a stable
sort), and greedily merge runs of segments whose gaps are `≤ merge_len`. -/
def merge_segments (merge_len : ℤ) (segs : List Seg) : List Seg :=
  (groupByChrom segs).flatMap
    (fun p => mergeChrom merge_len
      (p.2.mergeSort (fun a c => a.bpStart ≤ c.bpStart)))

end Parser

namespace LL

/-- `class Background` of `ersa/ersa_LL.py`: empirical parameters of the
null model. -/
structure Background where
  t : ℚ
  theta : ℚ
  lambda_ : ℚ
deriving DecidableEq

/-- `Background._Fp(i)`: per-segment log-density of the background model
(the source asserts `i ≥ t`; claims carry that bound as a hypothesis). -/
def Fp (P : MathPrims) (bg : Background) (i : ℚ) : ℚ :=
  -(i - bg.t) / bg.theta - P.log bg.theta

/-- `Background._Sp(s)`: sum of `_Fp` over the segment list. -/
def Sp (P : MathPrims) (bg : Background) (s : List ℚ) : ℚ :=
  (s.map (Fp P bg)).sum

/-- `Background._Np(n)`: Poisson log-probability with mean `lambda_`. -/
def Np (P : MathPrims) (bg : Background) (n : ℕ) : ℚ :=
  (n : ℚ) * P.log bg.lambda_ - bg.lambda_ - P.log (Nat.factorial n : ℚ)

/-- `Background.LL(n, s)`. -/
def bgLL (P : MathPrims) (bg : Background) (n : ℕ) (s : List ℚ) : ℚ :=
  Np P bg n + Sp P bg s

/-- `class Relation(Background)` of `ersa/ersa_LL.py` after `__init__` has
run: `r` already holds the effective recombination rate. -/
structure Relation extends Background where
  c : ℚ
  r : ℚ
  a : ℚ
  first_deg_adj : Bool
  avuncular_adj : Bool
deriving DecidableEq

/-- `Relation.__init__(c, r, t, theta, lambda_, first_deg_adj, nomask,
avuncular_adj)`: with masking enabled the supplied `r` is reduced by
`total_masked() / 100`, and `a` is fixed to 2. -/
def mkRelation (c r t theta lambda_ : ℚ) (first_deg_adj : Bool := false)
    (nomask : Bool := false) (avuncular_adj : Bool := false) : Relation :=
  { t := t, theta := theta, lambda_ := lambda_, c := c,
    r := if nomask then r else r - Mask.total_masked / 100,
    a := 2, first_deg_adj := first_deg_adj, avuncular_adj := avuncular_adj }

/-- `Relation._Fa(i, d, k_max)`: per-segment ancestral log-density,
with the Li et al. (2014) first-degree branch when `first_deg_adj` and
`d == 2`.  Python `range(2, k_max + 1)` is `List.range' 2 (k_max - 1)` and
`range(2, k)` is `List.range' 2 (k - 2)`. -/
def Fa (P : MathPrims) (rel : Relation) (i : ℚ) (d : ℕ) (kmax : ℕ := 200) : ℚ :=
  if rel.first_deg_adj ∧ d = 2 then
    let la1 := P.log (1 / 2) - ((d : ℚ) * i) / 100 - P.log (100 / (d : ℚ))
    let s := ((List.range' 2 (kmax - 1)).map (fun (k : ℕ) =>
      P.exp (((k : ℚ) - 1) * P.log (i / 100) -
        ((List.range' 2 (k - 2)).map (fun (j : ℕ) => P.log (j : ℚ))).sum))).sum
    la1 + P.log1p s
  else
    (-(d : ℚ) * (i - rel.t)) / 100 - P.log (100 / (d : ℚ))

/-- `Relation._Sa(s, d)`. -/
def Sa (P : MathPrims) (rel : Relation) (s : List ℚ) (d : ℕ) : ℚ :=
  (s.map (fun i => Fa P rel i d)).sum

/-- `Relation._p(d)`. -/
def pOf (P : MathPrims) (rel : Relation) (d : ℕ) : ℚ :=
  P.exp ((-(d : ℚ) * rel.t) / 100)

/-- `Relation._Na(n, d)`: Poisson log-probability with the degree-dependent
mean, including the first-degree and avuncular adjustment branches. -/
def Na (P : MathPrims) (rel : Relation) (n : ℕ) (d : ℕ) : ℚ :=
  let lam :=
    if rel.first_deg_adj ∧ d = 2 then
      (3 / 4) * rel.c + 2 * (d : ℚ) * rel.r * (3 / 4) * (1 / 4)
    else if rel.avuncular_adj ∧ d = 3 then
      (3 / 4) * rel.c + 4 * rel.r * ((3 / 4) * (1 / 4))
    else
      rel.a * (rel.r * (d : ℚ) + rel.c) * pOf P rel d / 2 ^ (d - 1)
  (n : ℚ) * P.log lam - lam - P.log (Nat.factorial n : ℚ)

/-- `Relation._LLr(np, na, s, d)`: profile objective for a given
background / ancestral split (`s[:np]` is `s.take np`, `s[np:]` is
`s.drop np`). -/
def LLr (P : MathPrims) (rel : Relation) (np na : ℕ) (s : List ℚ) (d : ℕ) : ℚ :=
  Np P rel.toBackground np + Na P rel na d +
    Sp P rel.toBackground (s.take np) + Sa P rel (s.drop np) d

/-- One iteration of the `for np in range(n + 1)` loop of `Relation.MLL`:
the accumulator is replaced only on a strict increase, so the first
maximum encountered is kept. -/
def MLLstep (f : ℕ → ℚ) (acc : Option (ℕ × ℚ)) (np : ℕ) : Option (ℕ × ℚ) :=
  match acc with
  | none => some (np, f np)
  | some (mnp, mmll) => if mmll < f np then some (np, f np) else some (mnp, mmll)

/-- The loop of `Relation.MLL(n, s, d)` with its `(max_np, max_mll)`
accumulator (initially `None`). -/
def MLLrun (P : MathPrims) (rel : Relation) (n : ℕ) (s : List ℚ) (d : ℕ) :
    Option (ℕ × ℚ) :=
  (List.range (n + 1)).foldl
    (MLLstep (fun np => LLr P rel np (n - np) s d)) none

/-- `Relation.MLL(n, s, d)`: since `range(n + 1)` is never empty the
accumulator is always set; the default is never exposed. -/
def MLL (P : MathPrims) (rel : Relation) (n : ℕ) (s : List ℚ) (d : ℕ) : ℕ × ℚ :=
  (MLLrun P rel n s d).getD (0, 0)

/-- `LL_ratio_p(LLr, LLn, df)` of `ersa/chisquare.py`. -/
def LL_ratio_p (P : MathPrims) (LLr_ LLn : ℚ) (df : ℕ := 2) : ℚ :=
  1 - P.chi2cdf (-2 * LLn + 2 * LLr_) df

/-- `LL_ratio_test(LLr, LLn, alpha)` of `ersa/chisquare.py` (it calls
`LL_ratio_p` with `df = 2`). -/
def LL_ratio_test (P : MathPrims) (LLr_ LLn alpha : ℚ) : Bool :=
  decide (LL_ratio_p P LLr_ LLn 2 < alpha)

/-- One iteration of the `for alt in alts` loop of `likelihood_ratio_CI`.
The accumulator holds `(lower_d, upper_d)` which the source sets together;
`none` is the initial `None, None` state and `l = 0` mirrors the Python
falsiness test `if not lower_d` (a `0` bound would also reset the pair). -/
def ciStep (P : MathPrims) (alpha maxLL : ℚ) (acc : Option (ℕ × ℕ))
    (alt : ℕ × ℕ × ℚ) : Option (ℕ × ℕ) :=
  if LL_ratio_test P maxLL alt.2.2 alpha = false then
    match acc with
    | none => some (alt.1, alt.1)
    | some (l, u) =>
      if l = 0 then some (alt.1, alt.1)
      else if alt.1 < l then some (alt.1, u)
      else if u < alt.1 then some (l, alt.1)
      else some (l, u)
  else acc

/-- `likelihood_ratio_CI(alts, max_alt_LL, alpha)` of `ersa/chisquare.py`. -/
def likelihood_ratio_CI (P : MathPrims) (alts : List (ℕ × ℕ × ℚ))
    (maxLL alpha : ℚ) : Option ℕ × Option ℕ :=
  match alts.foldl (ciStep P alpha maxLL) none with
  | none => (none, none)
  | some (l, u) => (some l, some u)

/-- `_n_to_ord(n)` of `ersa/ersa_LL.py`. -/
def nToOrd (n : ℕ) : String :=
  let i := if n < 20 then n else n % 10
  let suffix := if i = 1 then "st" else if i = 2 then "nd"
    else if i = 3 then "rd" else "th"
  toString n ++ suffix

/-- `_n_to_w(n, capitalize)` of `ersa/ersa_LL.py`; the `inflect` engine is
the abstract `w`. -/
def nToW (w : ℕ → String) (n : ℕ) (cap : Bool := true) : String :=
  let s := if n = 1 then "once" else if n = 2 then "twice"
    else if n = 3 then "thrice" else w n
  if cap then s.capitalize else s

/-- The `Great Aunt/Uncle` / `Niece/Nephew` name prefix built by
`_build_rel_map` for the `i == d - 2` branch (there `i - 2 = d - 4`). -/
def auntPre (d : ℕ) : String :=
  (if 1 < d - 4 then nToOrd (d - 4) ++ " " else "") ++ "Great " ++
    (if 0 < d - 4 then "Grand " else "")

/-- The cousin-removed name built by `_build_rel_map` for `i < d - 2`
(`name2` equals `name` there). -/
def cousinName (w : ℕ → String) (d i : ℕ) : String :=
  nToOrd (d / 2 - 1 - i / 2) ++ " Cousin " ++ nToW w i true ++ " " ++
    (if 3 < i then "Times" else "") ++ "Removed"

/-- Descendant-side label (`gen_bin[i]`, i.e. `name2`) that `_build_rel_map`
stores for a positive key `i` at degree `d ∈ [4, 20]`. -/
def posName (w : ℕ → String) (d i : ℕ) : String :=
  if i = d then nToOrd (d - 2) ++ " Great Grand" ++ "child"
  else if i = d - 2 then auntPre d ++ "Niece/Nephew"
  else cousinName w d i

/-- Ancestor-side label (`gen_bin[-i]`, i.e. `name`) that `_build_rel_map`
stores for a negative key `-i` at degree `d ∈ [4, 20]`. -/
def negName (w : ℕ → String) (d i : ℕ) : String :=
  if i = d then nToOrd (d - 2) ++ " Great Grand" ++ "parent"
  else if i = d - 2 then auntPre d ++ "Aunt/Uncle"
  else cousinName w d i

/-- The generation-bin dictionary `_build_rel_map` constructs for a degree
`4 ≤ d ≤ 20` as a function of the key: the loop
`for i in range(k, d + 1, 2)` (with `k = 1` for odd `d`, `k = 2` and a
separate cousin entry at key `0` for even `d`) populates exactly the keys
`g` with `|g| ≤ d` and `|g| ≡ d (mod 2)` (plus `0` when `d` is even). -/
def relMapBig (w : ℕ → String) (d : ℕ) (g : ℤ) : Option String :=
  if g = 0 then
    if d % 2 = 0 then some (nToOrd (d / 2 - 1) ++ " Cousin") else none
  else if g.natAbs ≤ d ∧ g.natAbs % 2 = d % 2 then
    some (if 0 < g then posName w d g.natAbs else negName w d g.natAbs)
  else none

/-- The full `rel_map` of `_build_rel_map(dmax=20)` as a lookup function:
hard-coded dictionaries for `d ≤ 3`, the generated bins for `4 ≤ d ≤ 20`,
`none` for a missing key or degree. -/
def relMapFun (w : ℕ → String) (d : ℕ) (g : ℤ) : Option String :=
  match d with
  | 0 => if g = 0 then some "Identical Twins or Duplication" else none
  | 1 => if g = -1 then some "Parent" else if g = 1 then some "Child" else none
  | 2 => if g = -2 then some "Grandparent" else if g = 0 then some "Sibling"
      else if g = 2 then some "Grandchild" else none
  | 3 => if g = -3 then some "Great Grandparent"
      else if g = -1 then some "Aunt/Uncle"
      else if g = 1 then some "Niece/Nephew"
      else if g = 3 then some "Great Grandchild" else none
  | _ => if d ≤ 20 then relMapBig w d g else none

/-- `potential_relationship(d_est, indv1, indv2, dob1, dob2)` of
`ersa/ersa_LL.py`.  `gen_bin = (delta + yr_per_gen / 2) // yr_per_gen` is
Python float floor division on exact values, i.e. `Int.fdiv`.  The source
returns `None` when `d_est` or `gen_bin` misses the map; when `gen_bin` is
present its negation always is too (`relMap_neg_isSome` below), so the
double lookup here only merges the two `None` returns. -/
def potential_relationship (w : ℕ → String) (d_est : ℕ) (indv1 indv2 : String)
    (dob1 dob2 : ℤ) : Option (String × String) :=
  let delta := dob2 - dob1
  let gen_bin : ℤ := if d_est = 0 then 0 else Int.fdiv (delta + 15) 30
  match relMapFun w d_est gen_bin, relMapFun w d_est (-gen_bin) with
  | some lab1, some lab2 =>
    if gen_bin % 2 = 1 ∧ d_est < 5 then
      some (lab1 ++ " or " ++ lab2, lab1 ++ " or " ++ lab2)
    else some (lab1, lab2)
  | _, _ => none

/-- Python `str.split(':')` on the character list of a string: splits at
every colon (used by `Estimate.__init__` for `pair.split(':')`). -/
def splitCols : List Char → List String
  | [] => [""]
  | c :: rest =>
    let r := splitCols rest
    if c = ':' then "" :: r
    else
      match r with
      | [] => [String.mk [c]]
      | h :: t => String.mk (c :: h.data) :: t

/-- `class Estimate` of `ersa/ersa_LL.py` (the stored `d` is the internal
meiosis count minus one; `LLs` maps each shifted degree to its
log-likelihood). -/
structure Estimate where
  pair : String
  indv1 : String
  indv2 : String
  dob : Option ℤ × Option ℤ
  reject : Bool
  alts : List (ℕ × ℕ × ℚ)
  s : List ℚ
  null_LL : ℚ
  max_LL : ℚ
  lower_d : Option ℕ
  upper_d : Option ℕ
  np : ℕ
  p : ℚ
  rel_est1 : Option String
  rel_est2 : Option String
  d : ℤ
  cm : ℚ
  LLs : List (ℤ × ℚ)
deriving DecidableEq

/-- `Estimate.__init__`: splits the pair id, populates the relationship
labels through `potential_relationship` when the null was rejected
(substituting default birth years `(0, 0)` / `(0, 31)` by parity of `d`
when a birth year is unknown), and shifts the reported degree by one.
Python raises `TypeError` when it unpacks a `None` relationship and
`ValueError` when the pair id does not split in two; both are `.error`s. -/
def mkEstimate (P : MathPrims) (pair : String) (dob : Option ℤ × Option ℤ)
    (d : ℕ) (reject : Bool) (null_LL max_LL : ℚ)
    (lower_d upper_d : Option ℕ) (alts : List (ℕ × ℕ × ℚ)) (s : List ℚ)
    (np : ℕ) (p : ℚ) : Except String Estimate :=
  match splitCols pair.data with
  | [i1, i2] =>
    let rels : Except String (Option String × Option String) :=
      if reject then
        let years : ℤ × ℤ :=
          if dob.1 = none ∨ dob.2 = none then
            if d % 2 = 0 then (0, 0) else (0, 31)
          else (dob.1.getD 0, dob.2.getD 0)
        match potential_relationship P.numToWords d i1 i2 years.1 years.2 with
        | some (r1, r2) => .ok (some r1, some r2)
        | none => .error "TypeError: cannot unpack non-iterable NoneType object"
      else .ok (none, none)
    match rels with
    | .error e => .error e
    | .ok (re1, re2) =>
      .ok { pair := pair, indv1 := i1, indv2 := i2, dob := dob,
            reject := reject, alts := alts, s := s, null_LL := null_LL,
            max_LL := max_LL, lower_d := lower_d, upper_d := upper_d,
            np := np, p := p, rel_est1 := re1, rel_est2 := re2,
            d := (d : ℤ) - 1, cm := s.sum,
            LLs := alts.map (fun alt => ((alt.1 : ℤ) - 1, alt.2.2)) }
  | _ => .error "ValueError: pair does not split into two ids"

/-- The `for i in range(1, len(s)): assert s[i - 1] <= s[i]` check of
`estimate_relation`. -/
def sortedCheck : List ℚ → Bool
  | [] => true
  | [_] => true
  | x :: y :: rest => decide (x ≤ y) && sortedCheck (y :: rest)

/-- The `alts` list of `estimate_relation`: one `(d, np, MLL)` triple per
`d` in `range(1, max_d + 1)`. -/
def altsList (P : MathPrims) (ha : Relation) (n : ℕ) (s : List ℚ)
    (max_d : ℕ) : List (ℕ × ℕ × ℚ) :=
  (List.range' 1 max_d).map
    (fun d => ((d, (MLL P ha n s d).1, (MLL P ha n s d).2) : ℕ × ℕ × ℚ))

/-- Python `max(alts, key=itemgetter(2))`: first element attaining the
maximal third component (replacement only on strict increase). -/
def pyMax3 (alts : List (ℕ × ℕ × ℚ)) : Option (ℕ × ℕ × ℚ) :=
  match alts with
  | [] => none
  | x :: rest => some (rest.foldl (fun acc y => if acc.2.2 < y.2.2 then y else acc) x)

/-- `estimate_relation(pair, dob, n, s, h0, ha, max_d, alpha, ci)` of
`ersa/ersa_LL.py`.  The sortedness `assert`, the `max` of an empty `alts`
(when `max_d = 0`) and the exceptions of `Estimate.__init__` surface as
`.error`. -/
def estimate_relation (P : MathPrims) (pair : String) (dob : Option ℤ × Option ℤ)
    (n : ℕ) (s : List ℚ) (h0 : Background) (ha : Relation) (max_d : ℕ)
    (alpha : ℚ) (ci : Bool := false) : Except String Estimate :=
  if sortedCheck s = false then .error "AssertionError: segments not sorted"
  else
    let null_LL := bgLL P h0 n s
    let alts := altsList P ha n s max_d
    match pyMax3 alts with
    | none => .error "ValueError: max() arg is an empty sequence"
    | some maxAlt =>
      let d := maxAlt.1
      let np := maxAlt.2.1
      let max_LL := maxAlt.2.2
      let p := LL_ratio_p P max_LL null_LL 2
      let reject : Bool := decide (p < alpha)
      let lu := if ci && reject then likelihood_ratio_CI P alts max_LL alpha
        else (none, none)
      mkEstimate P pair dob d reject null_LL max_LL lu.1 lu.2 alts s np p

end LL

/-!  Concrete interpretations of the abstract primitives and concrete data
used to instantiate theorems with hypotheses. -/

/-- A simple interpretation of the external math primitives: `log ↦ 0`,
`exp ↦ 1`, `log1p ↦ 0`, `chi2cdf` a step at `0`, words constant. -/
def stdPrims : MathPrims :=
  ⟨fun _ => 0, fun _ => 1, fun _ => 0, fun x _ => if 0 < x then 1 else 0,
   fun _ => "W"⟩

/-- Concrete background parameters for instantiations. -/
def bgW : LL.Background := ⟨0, 1 / 100, 1⟩

/-- Concrete alternative-model parameters (`nomask = true`). -/
def relW : LL.Relation := LL.mkRelation 1 1 0 (1 / 100) 1 false true false

/-- A segment on chromosome 15 spanning both buffered masked regions of
that chromosome. -/
def sgW : Parser.Seg := ⟨15, 19000000, 32000000, 50⟩

/-- `sgW` after the first chromosome-15 region's span adjustment. -/
def sgW' : Parser.Seg := ⟨15, 19000000, 32000000, 50 - 10.46⟩

/-- First masked region of chromosome 15. -/
def mr15a : Mask.Region := ⟨20060673, 25145260, 10.46⟩

/-- Second masked region of chromosome 15. -/
def mr15b : Mask.Region := ⟨27115823, 30295750, 9.29⟩

/-- A segment on chromosome 9 spanning the whole buffered masked region of
that chromosome. -/
def sg9 : Parser.Seg := ⟨9, 30000000, 80000000, 50⟩

/-- The `Estimate` produced by
`estimate_relation stdPrims "A:B" (none, none) 0 [] bgW relW 1 (1/2) false`
(null not rejected). -/
def estNoReject : LL.Estimate :=
  { pair := "A:B", indv1 := "A", indv2 := "B", dob := (none, none),
    reject := false, alts := [(1, 0, -5)], s := [], null_LL := -1,
    max_LL := -5, lower_d := none, upper_d := none, np := 0, p := 1,
    rel_est1 := none, rel_est2 := none, d := 0, cm := 0, LLs := [(0, -5)] }

/-- The `Estimate` produced by
`estimate_relation stdPrims "A:B" (none, none) 1 [1] bgW relW 2 (1/2) true`
(null rejected, confidence interval computed). -/
def estCIrun : LL.Estimate :=
  { pair := "A:B", indv1 := "A", indv2 := "B", dob := (none, none),
    reject := true, alts := [(1, 0, -501 / 100), (2, 0, -201 / 50)],
    s := [1], null_LL := -101, max_LL := -201 / 50, lower_d := some 2,
    upper_d := some 2, np := 0, p := 0, rel_est1 := some "Sibling",
    rel_est2 := some "Sibling", d := 1, cm := 1,
    LLs := [(0, -501 / 100), (1, -201 / 50)] }

/-- The guard of the span case of `mask_input_segs`: the segment covers the
whole buffered region. -/
def Mask.spans (s : Parser.Seg) (r : Mask.Region) : Prop :=
  s.bpStart ≤ r.lo - Mask.b ∧ r.hi + Mask.b ≤ s.bpEnd

/-- Geometric separation facts that hold for every ordered pair of regions
on one chromosome of the masked table (with `r'` stored before `r`); they
rule out a truncated segment matching an earlier region on a second pass. -/
def Mask.GoodPair (r' r : Mask.Region) : Prop :=
  ¬(r.lo ≤ r'.lo - Mask.b ∧ r'.lo - Mask.b < r.hi ∧ r.hi < r'.hi) ∧
  ¬(r'.lo ≤ r.hi ∧ r.hi ≤ r'.hi) ∧
  ¬(r'.lo < r.lo ∧ r'.hi + Mask.b ≤ r.hi ∧ r.lo - Mask.b < r'.hi) ∧
  ¬(r'.lo ≤ r.lo ∧ r.lo ≤ r'.hi)

instance : DecidableRel Mask.GoodPair :=
  fun r' r => inferInstanceAs (Decidable (¬ _ ∧ ¬ _ ∧ ¬ _ ∧ ¬ _))

instance (s : Parser.Seg) (r : Mask.Region) : Decidable (Mask.spans s r) :=
  inferInstanceAs (Decidable (_ ∧ _))

/-- A chromosome-9 segment truncated (start moved) by masking, whose masked
form is a fixed point of a second application. -/
def maskW : Parser.Seg := ⟨9, 38293533, 92605261, 1029 / 100⟩

/-!  Theorems. -/

/-- C9: constructing a `Relation` with masking enabled (`nomask = False`)
sets the effective recombination rate to `r - total_masked() / 100`, where
`total_masked()` sums the mean masked cM over all entries of the fixed
table (119.92 cM in total); with `nomask = True` the supplied `r` is kept
unchanged. -/
theorem C9_effective_recombination_rate (c r t theta lambda_ : ℚ)
    (fda ava : Bool) :
    (LL.mkRelation c r t theta lambda_ fda false ava).r =
      r - Mask.total_masked / 100 ∧
    (LL.mkRelation c r t theta lambda_ fda true ava).r = r ∧
    Mask.total_masked = 119.92 :=
  ⟨rfl, rfl, by norm_num [Mask.total_masked, Mask.maskedTable]⟩

lemma sum_map_flatMap {α β : Type} (f : β → ℚ) (g : α → List β) (l : List α) :
    ((l.flatMap g).map f).sum = (l.map (fun a => ((g a).map f).sum)).sum := by
  induction l with
  | nil => simp
  | cons a l ih => simp [List.flatMap_cons, ih]

lemma mergeWalk_sum (m : ℤ) :
    ∀ (l : List Parser.Seg) (cur : Parser.Seg),
      ((Parser.mergeWalk m cur l).map Parser.Seg.length).sum =
        cur.length + (l.map Parser.Seg.length).sum := by
  intro l
  induction l with
  | nil => intro cur; simp [Parser.mergeWalk]
  | cons nxt rest ih =>
    intro cur
    by_cases h : nxt.bpStart - cur.bpEnd > m
    · simp only [Parser.mergeWalk, if_pos h, List.map_cons, List.sum_cons, ih]
      try ring
    · simp only [Parser.mergeWalk, if_neg h, ih, List.map_cons, List.sum_cons]
      try ring

lemma mergeWalk_count (m : ℤ) :
    ∀ (l : List Parser.Seg) (cur : Parser.Seg),
      (Parser.mergeWalk m cur l).length ≤ 1 + l.length := by
  intro l
  induction l with
  | nil => intro cur; simp [Parser.mergeWalk]
  | cons nxt rest ih =>
    intro cur
    by_cases h : nxt.bpStart - cur.bpEnd > m
    · simp only [Parser.mergeWalk, if_pos h, List.length_cons]
      have := ih nxt
      omega
    · simp only [Parser.mergeWalk, if_neg h, List.length_cons]
      have := ih { cur with bpEnd := nxt.bpEnd, length := cur.length + nxt.length }
      omega

lemma mergeChrom_sum (m : ℤ) (l : List Parser.Seg) :
    ((Parser.mergeChrom m l).map Parser.Seg.length).sum =
      (l.map Parser.Seg.length).sum := by
  cases l with
  | nil => simp [Parser.mergeChrom]
  | cons s rest => simp [Parser.mergeChrom, mergeWalk_sum]

lemma mergeChrom_count (m : ℤ) (l : List Parser.Seg) :
    (Parser.mergeChrom m l).length ≤ l.length := by
  cases l with
  | nil => simp [Parser.mergeChrom]
  | cons s rest =>
    have := mergeWalk_count m rest s
    simp only [Parser.mergeChrom, List.length_cons]
    omega

lemma firstKeys_nodup : ∀ l : List ℤ, (Parser.firstKeys l).Nodup := by
  intro l
  induction l with
  | nil => simp [Parser.firstKeys]
  | cons c rest ih =>
    simp only [Parser.firstKeys, List.nodup_cons]
    refine ⟨?_, ih.filter _⟩
    intro hmem
    have := (List.mem_filter.mp hmem).2
    simp at this

lemma mem_firstKeys (x : ℤ) : ∀ l : List ℤ, x ∈ Parser.firstKeys l ↔ x ∈ l := by
  intro l
  induction l with
  | nil => simp [Parser.firstKeys]
  | cons c rest ih =>
    by_cases hx : x = c
    · simp [Parser.firstKeys, hx]
    · simp [Parser.firstKeys, hx, List.mem_filter, ih]

lemma sum_filter_split (p : Parser.Seg → Bool) (f : Parser.Seg → ℚ)
    (l : List Parser.Seg) :
    ((l.filter p).map f).sum + ((l.filter (fun a => !(p a))).map f).sum =
      (l.map f).sum := by
  induction l with
  | nil => simp
  | cons a l ih =>
    by_cases h : p a
    · simp only [List.filter_cons, h, Bool.not_true, if_pos, List.map_cons,
        List.sum_cons, if_neg, Bool.false_eq_true, not_false_iff, reduceIte]
      rw [← ih]; ring
    · have hb : p a = false := by simpa using h
      simp only [List.filter_cons, hb, Bool.not_false, Bool.false_eq_true,
        if_neg, not_false_iff, if_pos, List.map_cons, List.sum_cons, reduceIte]
      rw [← ih]; ring

lemma count_filter_split (p : Parser.Seg → Bool) (l : List Parser.Seg) :
    (l.filter p).length + (l.filter (fun a => !(p a))).length = l.length := by
  induction l with
  | nil => simp
  | cons a l ih =>
    by_cases h : p a
    · have hb : p a = true := h
      simp only [List.filter_cons, hb, Bool.not_true, if_pos, List.length_cons,
        Bool.false_eq_true, if_neg, not_false_iff, reduceIte]
      omega
    · have hb : p a = false := by simpa using h
      simp only [List.filter_cons, hb, Bool.not_false, Bool.false_eq_true,
        if_neg, not_false_iff, if_pos, List.length_cons, reduceIte]
      omega

lemma groups_sum (f : Parser.Seg → ℚ) :
    ∀ (cs : List ℤ) (l : List Parser.Seg), cs.Nodup →
      (∀ sg ∈ l, sg.chrom ∈ cs) →
      (cs.map (fun c => ((l.filter (fun sg => sg.chrom = c)).map f).sum)).sum =
        (l.map f).sum := by
  intro cs
  induction cs with
  | nil =>
    intro l _ hcov
    have : l = [] := by
      rw [List.eq_nil_iff_forall_not_mem]
      intro a ha
      exact absurd (hcov a ha) (List.not_mem_nil _)
    simp [this]
  | cons c cs ih =>
    intro l hnd hcov
    have hc_notin : c ∉ cs := (List.nodup_cons.mp hnd).1
    have hnd' : cs.Nodup := (List.nodup_cons.mp hnd).2
    set l' := l.filter (fun sg => !(decide (sg.chrom = c))) with hl'
    have hfil : ∀ c' ∈ cs,
        l.filter (fun sg => sg.chrom = c') =
          l'.filter (fun sg => sg.chrom = c') := by
      intro c' hc'
      have hne : c' ≠ c := fun h => hc_notin (h ▸ hc')
      rw [hl', List.filter_filter]
      refine (List.filter_congr ?_).symm
      intro sg _
      by_cases h : sg.chrom = c'
      · simp [h, hne]
      · simp [h]
    have hcov' : ∀ sg ∈ l', sg.chrom ∈ cs := by
      intro sg hsg
      have h1 := (List.mem_filter.mp hsg).1
      have h2 := (List.mem_filter.mp hsg).2
      have := hcov sg h1
      simp only [List.mem_cons] at this
      rcases this with h | h
      · simp [h] at h2
      · exact h
    have hmap : cs.map (fun c' => ((l.filter (fun sg => sg.chrom = c')).map f).sum) =
        cs.map (fun c' => ((l'.filter (fun sg => sg.chrom = c')).map f).sum) := by
      refine List.map_congr_left ?_
      intro c' hc'
      rw [hfil c' hc']
    simp only [List.map_cons, List.sum_cons, hmap, ih l' hnd' hcov']
    rw [hl']
    exact sum_filter_split (fun sg => decide (sg.chrom = c)) f l

lemma groups_count :
    ∀ (cs : List ℤ) (l : List Parser.Seg), cs.Nodup →
      (∀ sg ∈ l, sg.chrom ∈ cs) →
      (cs.map (fun c => (l.filter (fun sg => sg.chrom = c)).length)).sum =
        l.length := by
  intro cs
  induction cs with
  | nil =>
    intro l _ hcov
    have : l = [] := by
      rw [List.eq_nil_iff_forall_not_mem]
      intro a ha
      exact absurd (hcov a ha) (List.not_mem_nil _)
    simp [this]
  | cons c cs ih =>
    intro l hnd hcov
    have hc_notin : c ∉ cs := (List.nodup_cons.mp hnd).1
    have hnd' : cs.Nodup := (List.nodup_cons.mp hnd).2
    set l' := l.filter (fun sg => !(decide (sg.chrom = c))) with hl'
    have hfil : ∀ c' ∈ cs,
        l.filter (fun sg => sg.chrom = c') =
          l'.filter (fun sg => sg.chrom = c') := by
      intro c' hc'
      have hne : c' ≠ c := fun h => hc_notin (h ▸ hc')
      rw [hl', List.filter_filter]
      refine (List.filter_congr ?_).symm
      intro sg _
      by_cases h : sg.chrom = c'
      · simp [h, hne]
      · simp [h]
    have hcov' : ∀ sg ∈ l', sg.chrom ∈ cs := by
      intro sg hsg
      have h1 := (List.mem_filter.mp hsg).1
      have h2 := (List.mem_filter.mp hsg).2
      have := hcov sg h1
      simp only [List.mem_cons] at this
      rcases this with h | h
      · simp [h] at h2
      · exact h
    have hmap : cs.map (fun c' => (l.filter (fun sg => sg.chrom = c')).length) =
        cs.map (fun c' => (l'.filter (fun sg => sg.chrom = c')).length) := by
      refine List.map_congr_left ?_
      intro c' hc'
      rw [hfil c' hc']
    simp only [List.map_cons, List.sum_cons, hmap, ih l' hnd' hcov']
    rw [hl']
    exact count_filter_split (fun sg => decide (sg.chrom = c)) l

/-- C6: `merge_segments` never increases the segment count, and the total
summed length is conserved exactly. -/
theorem C6_merge_count_and_total_length (m : ℤ) (segs : List Parser.Seg) :
    (Parser.merge_segments m segs).length ≤ segs.length ∧
    ((Parser.merge_segments m segs).map Parser.Seg.length).sum =
      (segs.map Parser.Seg.length).sum := by
  have hnd := firstKeys_nodup (segs.map Parser.Seg.chrom)
  have hcov : ∀ sg ∈ segs,
      sg.chrom ∈ Parser.firstKeys (segs.map Parser.Seg.chrom) := by
    intro sg hsg
    rw [mem_firstKeys]
    exact List.mem_map_of_mem Parser.Seg.chrom hsg
  have hperm : ∀ (l : List Parser.Seg),
      (l.mergeSort (fun a c => a.bpStart ≤ c.bpStart)).Perm l :=
    fun l => List.mergeSort_perm l _
  constructor
  · rw [Parser.merge_segments, Parser.groupByChrom, List.flatMap_map,
      List.length_flatMap]
    refine le_trans (List.sum_le_sum ?_)
      (le_of_eq (groups_count (Parser.firstKeys (segs.map Parser.Seg.chrom))
        segs hnd hcov))
    intro c _
    simp only [Function.comp_apply]
    have h1 := mergeChrom_count m
      ((segs.filter (fun sg => sg.chrom = c)).mergeSort
        (fun a c => a.bpStart ≤ c.bpStart))
    have h2 := (hperm (segs.filter (fun sg => sg.chrom = c))).length_eq
    omega
  · rw [Parser.merge_segments, Parser.groupByChrom, List.flatMap_map,
      sum_map_flatMap]
    rw [List.map_congr_left (g := fun c =>
        ((segs.filter (fun sg => sg.chrom = c)).map Parser.Seg.length).sum) ?_]
    · exact groups_sum Parser.Seg.length
        (Parser.firstKeys (segs.map Parser.Seg.chrom)) segs hnd hcov
    · intro c _
      rw [mergeChrom_sum]
      exact ((hperm (segs.filter (fun sg => sg.chrom = c))).map
        Parser.Seg.length).sum_eq

lemma mllfold_spec (f : ℕ → ℚ) (n : ℕ) :
    ∃ i m, (List.range (n + 1)).foldl (LL.MLLstep f) none = some (i, m) ∧
      i ≤ n ∧ f i = m ∧ (∀ j, j ≤ n → f j ≤ m) ∧ (∀ j, j < i → f j < m) := by
  induction n with
  | zero =>
    refine ⟨0, f 0, ?_, le_refl 0, rfl, ?_, ?_⟩
    · simp [List.range_succ, LL.MLLstep]
    · intro j hj
      interval_cases j
      exact le_refl _
    · intro j hj
      omega
  | succ n ih =>
    obtain ⟨i, m, hfold, hi, hm, hub, hlt⟩ := ih
    rw [List.range_succ, List.foldl_append, hfold]
    by_cases hcomp : m < f (n + 1)
    · refine ⟨n + 1, f (n + 1), ?_, le_refl _, rfl, ?_, ?_⟩
      · simp [LL.MLLstep, if_pos hcomp]
      · intro j hj
        rcases Nat.lt_or_ge j (n + 1) with h | h
        · exact le_of_lt (lt_of_le_of_lt (hub j (by omega)) hcomp)
        · have : j = n + 1 := by omega
          simp [this]
      · intro j hj
        exact lt_of_le_of_lt (hub j (by omega)) hcomp
    · refine ⟨i, m, ?_, by omega, hm, ?_, hlt⟩
      · simp [LL.MLLstep, if_neg hcomp]
      · intro j hj
        rcases Nat.lt_or_ge j (n + 1) with h | h
        · exact hub j (by omega)
        · have : j = n + 1 := by omega
          rw [this]
          exact le_of_not_lt hcomp

/-- C1: for `n ≥ 0`, ascending-sorted `s` of length `n` with entries `≥ t`,
and `d ≥ 1`, `Relation.MLL(n, s, d)` returns `(np*, MLL)` where `MLL` is
the maximum over `np ∈ [0, n]` of
`_Np(np) + _Na(n - np, d) + _Sp(s[:np]) + _Sa(s[np:], d)` and `np*` is the
first (hence smallest) maximiser found scanning `np` ascending. -/
theorem C1_MLL_profile_maximum (P : MathPrims) (rel : LL.Relation) (n : ℕ)
    (s : List ℚ) (d : ℕ) (hlen : s.length = n)
    (hsorted : List.Chain' (· ≤ ·) s) (hmin : ∀ x ∈ s, rel.t ≤ x)
    (hd : 1 ≤ d) :
    LL.MLLrun P rel n s d = some (LL.MLL P rel n s d) ∧
    (LL.MLL P rel n s d).1 ≤ n ∧
    (LL.MLL P rel n s d).2 =
      LL.LLr P rel (LL.MLL P rel n s d).1 (n - (LL.MLL P rel n s d).1) s d ∧
    (∀ np, np ≤ n → LL.LLr P rel np (n - np) s d ≤ (LL.MLL P rel n s d).2) ∧
    (∀ np, np < (LL.MLL P rel n s d).1 →
      LL.LLr P rel np (n - np) s d < (LL.MLL P rel n s d).2) := by
  obtain ⟨i, m, hfold, hi, hm, hub, hlt⟩ :=
    mllfold_spec (fun np => LL.LLr P rel np (n - np) s d) n
  have hrun : LL.MLLrun P rel n s d = some (i, m) := hfold
  have hMLL : LL.MLL P rel n s d = (i, m) := by
    rw [LL.MLL, hrun]
    rfl
  rw [hMLL]
  exact ⟨hrun, hi, hm.symm, hub, hlt⟩

/-- Witness for C1: concrete evaluation at `n = 2`, `s = [1, 2]`, `d = 1`. -/
theorem C1_MLL_profile_maximum_witness :
    (([1, 2] : List ℚ).length = 2 ∧ List.Chain' (· ≤ ·) ([1, 2] : List ℚ) ∧
      (∀ x ∈ ([1, 2] : List ℚ), relW.t ≤ x) ∧ 1 ≤ 1) ∧
    (∀ np, np ≤ 2 → LL.LLr stdPrims relW np (2 - np) [1, 2] 1 ≤
      (LL.MLL stdPrims relW 2 [1, 2] 1).2) :=
  ⟨⟨rfl, by norm_num [List.chain'_cons, List.chain'_singleton],
      by norm_num [relW, LL.mkRelation], le_refl 1⟩,
    (C1_MLL_profile_maximum stdPrims relW 2 [1, 2] 1 rfl
      (by norm_num [List.chain'_cons, List.chain'_singleton])
      (by norm_num [relW, LL.mkRelation]) (le_refl 1)).2.2.2.1⟩

lemma sortedCheck_eq_false_of_desc :
    ∀ (s : List ℚ) (i : ℕ), i + 1 < s.length → s.getD (i + 1) 0 < s.getD i 0 →
      LL.sortedCheck s = false := by
  intro s
  induction s with
  | nil =>
    intro i h
    simp at h
  | cons x rest ih =>
    intro i h hlt
    cases rest with
    | nil =>
      simp at h
    | cons y rest2 =>
      cases i with
      | zero =>
        have : ¬ (x ≤ y) := by
          simp only [List.getD_cons_succ, List.getD_cons_zero] at hlt
          exact not_le.mpr hlt
        simp [LL.sortedCheck, this]
      | succ j =>
        have hrec := ih j (by simpa using h) (by simpa using hlt)
        simp [LL.sortedCheck, hrec]

/-- C8: `estimate_relation` raises (the sortedness `assert` fails) on every
segment list with an adjacent descending pair, rather than returning an
`Estimate`. -/
theorem C8_unsorted_input_raises (P : MathPrims) (pair : String)
    (dob : Option ℤ × Option ℤ) (n : ℕ) (s : List ℚ) (h0 : LL.Background)
    (ha : LL.Relation) (max_d : ℕ) (alpha : ℚ) (ci : Bool)
    (h : ∃ i, i + 1 < s.length ∧ s.getD (i + 1) 0 < s.getD i 0) :
    LL.estimate_relation P pair dob n s h0 ha max_d alpha ci =
      .error "AssertionError: segments not sorted" := by
  obtain ⟨i, h1, h2⟩ := h
  have hf := sortedCheck_eq_false_of_desc s i h1 h2
  simp [LL.estimate_relation, hf]

/-- Witness for C8: the unsorted list `[2, 1]` makes `estimate_relation`
return the assertion error. -/
theorem C8_unsorted_input_raises_witness :
    (∃ i, i + 1 < ([2, 1] : List ℚ).length ∧
      ([2, 1] : List ℚ).getD (i + 1) 0 < ([2, 1] : List ℚ).getD i 0) ∧
    LL.estimate_relation stdPrims "A:B" (none, none) 2 [2, 1] bgW relW 2
      (1 / 2) false = .error "AssertionError: segments not sorted" :=
  ⟨⟨0, by norm_num, by norm_num⟩,
    C8_unsorted_input_raises stdPrims "A:B" (none, none) 2 [2, 1] bgW relW 2
      (1 / 2) false ⟨0, by norm_num, by norm_num⟩⟩

/-- C10: the per-segment region loop applies the adjustment of the first
region whose guard fires and ignores every later region of the table
(the loop `break`s at the first match). -/
theorem C10_first_matching_region_only (sg : Parser.Seg)
    (rs1 rs2 : List Mask.Region) (r : Mask.Region) (s' : Parser.Seg)
    (hnone : ∀ r' ∈ rs1, Mask.applyRegion sg r' = none)
    (hmatch : Mask.applyRegion sg r = some s') :
    Mask.applyRegions sg (rs1 ++ r :: rs2) = s' := by
  induction rs1 with
  | nil => simp [Mask.applyRegions, hmatch]
  | cons a as ih =>
    have ha : Mask.applyRegion sg a = none := hnone a (List.mem_cons_self a as)
    have hstep : Mask.applyRegions sg ((a :: as) ++ r :: rs2) =
        Mask.applyRegions sg (as ++ r :: rs2) := by
      simp [Mask.applyRegions, ha]
    rw [hstep]
    exact ih (fun r' hr' => hnone r' (List.mem_cons_of_mem a hr'))

/-- Witness for C10: a chromosome-15 segment spanning the buffered extents
of both table regions of that chromosome is adjusted by the first region
only. -/
theorem C10_first_matching_region_only_witness :
    (∀ r' ∈ ([] : List Mask.Region), Mask.applyRegion sgW r' = none) ∧
    Mask.applyRegion sgW mr15a = some sgW' ∧
    ([] : List Mask.Region) ++ mr15a :: [mr15b] = Mask.maskedRegions 15 ∧
    Mask.applyRegions sgW ([] ++ mr15a :: [mr15b]) = sgW' :=
  ⟨fun r' hr' => absurd hr' (List.not_mem_nil r'),
    by norm_num [Mask.applyRegion, Mask.b, sgW, mr15a, sgW'],
    by rfl,
    C10_first_matching_region_only sgW [] [mr15b] mr15a sgW'
      (fun r' hr' => absurd hr' (List.not_mem_nil r'))
      (by norm_num [Mask.applyRegion, Mask.b, sgW, mr15a, sgW'])⟩

lemma mkEstimate_ok_inv (P : MathPrims) (pair : String)
    (dob : Option ℤ × Option ℤ) (d : ℕ) (reject : Bool) (null_LL max_LL : ℚ)
    (lower_d upper_d : Option ℕ) (alts : List (ℕ × ℕ × ℚ)) (s : List ℚ)
    (np : ℕ) (p : ℚ) (est : LL.Estimate)
    (h : LL.mkEstimate P pair dob d reject null_LL max_LL lower_d upper_d
      alts s np p = .ok est) :
    est.pair = pair ∧ est.dob = dob ∧ est.reject = reject ∧
    est.alts = alts ∧ est.s = s ∧ est.null_LL = null_LL ∧
    est.max_LL = max_LL ∧ est.lower_d = lower_d ∧ est.upper_d = upper_d ∧
    est.np = np ∧ est.p = p ∧ est.d = (d : ℤ) - 1 ∧
    (reject = false → est.rel_est1 = none ∧ est.rel_est2 = none) ∧
    (reject = true →
      ∃ r1 r2, est.rel_est1 = some r1 ∧ est.rel_est2 = some r2) := by
  simp only [LL.mkEstimate] at h
  split at h
  next i1 i2 heq =>
    split at h
    next e he => exact absurd h (by simp)
    next re1 re2 hre =>
      have hrec := (Except.ok.inj h).symm
      subst hrec
      by_cases hrej : reject = true
      · rw [if_pos hrej] at hre
        split at hre
        next r1 r2 hpr =>
          have hpair := Prod.mk.inj (Except.ok.inj hre)
          refine ⟨rfl, rfl, rfl, rfl, rfl, rfl, rfl, rfl, rfl, rfl, rfl, rfl,
            ?_, ?_⟩
          · intro hfalse
            rw [hrej] at hfalse
            exact absurd hfalse (by simp)
          · intro _
            exact ⟨r1, r2, hpair.1.symm, hpair.2.symm⟩
        next hpr => exact absurd hre (by simp)
      · have hrejf : reject = false := by
          revert hrej
          cases reject <;> simp
        rw [if_neg hrej] at hre
        have hpair := Prod.mk.inj (Except.ok.inj hre)
        refine ⟨rfl, rfl, rfl, rfl, rfl, rfl, rfl, rfl, rfl, rfl, rfl, rfl,
          ?_, ?_⟩
        · intro _
          exact ⟨hpair.1.symm, hpair.2.symm⟩
        · intro htrue
          exact absurd htrue hrej
  next hnot => exact absurd h (by simp)

lemma estimate_relation_ok_inv (P : MathPrims) (pair : String)
    (dob : Option ℤ × Option ℤ) (n : ℕ) (s : List ℚ) (h0 : LL.Background)
    (ha : LL.Relation) (max_d : ℕ) (alpha : ℚ) (ci : Bool)
    (est : LL.Estimate)
    (h : LL.estimate_relation P pair dob n s h0 ha max_d alpha ci = .ok est) :
    ∃ maxAlt, LL.pyMax3 (LL.altsList P ha n s max_d) = some maxAlt ∧
      est.alts = LL.altsList P ha n s max_d ∧
      est.s = s ∧
      est.null_LL = LL.bgLL P h0 n s ∧
      est.max_LL = maxAlt.2.2 ∧
      est.np = maxAlt.2.1 ∧
      est.d = (maxAlt.1 : ℤ) - 1 ∧
      est.p = LL.LL_ratio_p P maxAlt.2.2 (LL.bgLL P h0 n s) 2 ∧
      est.reject = decide (est.p < alpha) ∧
      ((est.lower_d, est.upper_d) =
        if ci && est.reject then
          LL.likelihood_ratio_CI P (LL.altsList P ha n s max_d) maxAlt.2.2 alpha
        else (none, none)) ∧
      (est.reject = false → est.rel_est1 = none ∧ est.rel_est2 = none) ∧
      (est.reject = true →
        ∃ r1 r2, est.rel_est1 = some r1 ∧ est.rel_est2 = some r2) := by
  by_cases hs : LL.sortedCheck s = false
  · rw [LL.estimate_relation, if_pos hs] at h
    exact absurd h (by simp)
  · rw [LL.estimate_relation, if_neg hs] at h
    simp only [] at h
    rcases hpm : LL.pyMax3 (LL.altsList P ha n s max_d) with _ | maxAlt
    · rw [hpm] at h
      exact absurd h (by simp)
    · rw [hpm] at h
      simp only [] at h
      obtain ⟨h1, h2, h3, h4, h5, h6, h7, h8, h9, h10, h11, h12, h13, h14⟩ :=
        mkEstimate_ok_inv _ _ _ _ _ _ _ _ _ _ _ _ _ _ h
      refine ⟨maxAlt, rfl, h4, h5, h6, h7, h10, h12, h11, ?_, ?_, ?_, ?_⟩
      · rw [h11, ← h3]
      · rw [h8, h9, ← h3]
      · intro hf
        exact h13 (by rw [← h3, hf])
      · intro ht
        exact h14 (by rw [← h3, ht])

lemma pyfold_spec (F : ℕ → ℕ × ℕ × ℚ) :
    ∀ (cnt s0 : ℕ) (acc : ℕ × ℕ × ℚ) (d0 lo : ℕ),
      lo ≤ d0 → d0 < s0 → acc = F d0 →
      (∀ d, lo ≤ d → d < s0 → (F d).2.2 ≤ acc.2.2) →
      (∀ d, lo ≤ d → d < d0 → (F d).2.2 < acc.2.2) →
      ∃ d1, lo ≤ d1 ∧ d1 < s0 + cnt ∧
        ((List.range' s0 cnt).map F).foldl
          (fun a y => if a.2.2 < y.2.2 then y else a) acc = F d1 ∧
        (∀ d, lo ≤ d → d < s0 + cnt → (F d).2.2 ≤ (F d1).2.2) ∧
        (∀ d, lo ≤ d → d < d1 → (F d).2.2 < (F d1).2.2) := by
  intro cnt
  induction cnt with
  | zero =>
    intro s0 acc d0 lo h1 h2 h3 h4 h5
    refine ⟨d0, h1, by omega, by simp [← h3], ?_, ?_⟩
    · intro d hd1 hd2
      rw [← h3]
      exact h4 d hd1 (by omega)
    · intro d hd1 hd2
      rw [← h3]
      exact h5 d hd1 hd2
  | succ cnt ih =>
    intro s0 acc d0 lo h1 h2 h3 h4 h5
    rw [List.range'_succ, List.map_cons, List.foldl_cons]
    by_cases hlt : acc.2.2 < (F s0).2.2
    · rw [if_pos hlt]
      have hub : ∀ d, lo ≤ d → d < s0 + 1 → (F d).2.2 ≤ (F s0).2.2 := by
        intro d hd1 hd2
        rcases Nat.lt_or_ge d s0 with hc | hc
        · exact le_of_lt (lt_of_le_of_lt (h4 d hd1 hc) hlt)
        · have hde : d = s0 := by omega
          rw [hde]
      have hst : ∀ d, lo ≤ d → d < s0 → (F d).2.2 < (F s0).2.2 :=
        fun d hd1 hd2 => lt_of_le_of_lt (h4 d hd1 (by omega)) hlt
      obtain ⟨d1, g1, g2, g3, g4, g5⟩ := ih (s0 + 1) (F s0) s0 lo (by omega)
        (by omega) rfl hub hst
      exact ⟨d1, g1, by omega, g3, fun d hd1 hd2 => g4 d hd1 (by omega), g5⟩
    · rw [if_neg hlt]
      have hub : ∀ d, lo ≤ d → d < s0 + 1 → (F d).2.2 ≤ acc.2.2 := by
        intro d hd1 hd2
        rcases Nat.lt_or_ge d s0 with hc | hc
        · exact h4 d hd1 hc
        · have hde : d = s0 := by omega
          rw [hde]
          exact le_of_not_lt hlt
      obtain ⟨d1, g1, g2, g3, g4, g5⟩ := ih (s0 + 1) acc d0 lo h1 (by omega)
        h3 hub h5
      exact ⟨d1, g1, by omega, g3, fun d hd1 hd2 => g4 d hd1 (by omega), g5⟩

lemma pyMax3_altsList_spec (P : MathPrims) (ha : LL.Relation) (n : ℕ)
    (s : List ℚ) (max_d : ℕ) (hmd : 1 ≤ max_d) :
    ∃ maxAlt, LL.pyMax3 (LL.altsList P ha n s max_d) = some maxAlt ∧
      1 ≤ maxAlt.1 ∧ maxAlt.1 ≤ max_d ∧
      maxAlt.2.1 = (LL.MLL P ha n s maxAlt.1).1 ∧
      maxAlt.2.2 = (LL.MLL P ha n s maxAlt.1).2 ∧
      (∀ d, 1 ≤ d → d ≤ max_d → (LL.MLL P ha n s d).2 ≤ maxAlt.2.2) ∧
      (∀ d, 1 ≤ d → d < maxAlt.1 → (LL.MLL P ha n s d).2 < maxAlt.2.2) := by
  set F : ℕ → ℕ × ℕ × ℚ :=
    fun d => ((d, (LL.MLL P ha n s d).1, (LL.MLL P ha n s d).2) : ℕ × ℕ × ℚ)
    with hF
  have hrange : List.range' 1 max_d = 1 :: List.range' 2 (max_d - 1) := by
    obtain ⟨k, rfl⟩ : ∃ k, max_d = k + 1 := ⟨max_d - 1, by omega⟩
    rw [List.range'_succ]
    simp
  have hdecomp : LL.altsList P ha n s max_d =
      F 1 :: (List.range' 2 (max_d - 1)).map F := by
    rw [LL.altsList, hrange, List.map_cons]
  obtain ⟨d1, g1, g2, g3, g4, g5⟩ := pyfold_spec F (max_d - 1) 2 (F 1) 1 1
    (le_refl 1) (by omega) rfl
    (by
      intro d hd1 hd2
      have : d = 1 := by omega
      rw [this])
    (by
      intro d hd1 hd2
      omega)
  refine ⟨F d1, ?_, g1, by show d1 ≤ max_d; omega, rfl, rfl, ?_, ?_⟩
  · rw [hdecomp, LL.pyMax3]
    simp only [g3]
  · intro d hd1 hd2
    exact g4 d hd1 (by omega)
  · intro d hd1 hd2
    exact g5 d hd1 hd2

/-- C2: whenever `estimate_relation` returns an `Estimate`, its p-value is
`1 - chi2_cdf(-2 LLn + 2 MLL, df=2)` for the background log-likelihood
`LLn` and the maximal `MLL` over `d ∈ [1, max_d]`, the null is rejected iff
`p < alpha`, and the selected degree is the smallest maximiser of `MLL`
(Python `max` keeps the first of tied maxima). -/
theorem C2_p_value_reject_and_degree_selection (P : MathPrims) (pair : String)
    (dob : Option ℤ × Option ℤ) (n : ℕ) (s : List ℚ) (h0 : LL.Background)
    (ha : LL.Relation) (max_d : ℕ) (alpha : ℚ) (ci : Bool) (est : LL.Estimate)
    (hok : LL.estimate_relation P pair dob n s h0 ha max_d alpha ci = .ok est) :
    est.p = 1 - P.chi2cdf (-2 * LL.bgLL P h0 n s + 2 * est.max_LL) 2 ∧
    (est.reject = true ↔ est.p < alpha) ∧
    (∃ dstar, 1 ≤ dstar ∧ dstar ≤ max_d ∧ est.d = (dstar : ℤ) - 1 ∧
      est.np = (LL.MLL P ha n s dstar).1 ∧
      est.max_LL = (LL.MLL P ha n s dstar).2 ∧
      (∀ d, 1 ≤ d → d ≤ max_d → (LL.MLL P ha n s d).2 ≤ est.max_LL) ∧
      (∀ d, 1 ≤ d → d < dstar → (LL.MLL P ha n s d).2 < est.max_LL)) := by
  obtain ⟨maxAlt, hpm, halts, hes, hnull, hmax, hnp, hd, hp, hrej, hlu, hrf, hrt⟩ :=
    estimate_relation_ok_inv P pair dob n s h0 ha max_d alpha ci est hok
  have hmd : 1 ≤ max_d := by
    by_contra hc
    have h0d : max_d = 0 := by omega
    rw [h0d] at hpm
    simp [LL.altsList, LL.pyMax3] at hpm
  obtain ⟨maxAlt', hpm', k1, k2, k3, k4, k5, k6⟩ :=
    pyMax3_altsList_spec P ha n s max_d hmd
  have hsame : maxAlt = maxAlt' := by
    rw [hpm] at hpm'
    exact Option.some.inj hpm'
  subst hsame
  refine ⟨?_, ?_, maxAlt.1, k1, k2, hd, by rw [hnp, k3], by rw [hmax, k4], ?_, ?_⟩
  · rw [hp, hmax, LL.LL_ratio_p]
  · rw [hrej]
    simp
  · intro d hd1 hd2
    rw [hmax]
    exact k5 d hd1 hd2
  · intro d hd1 hd2
    rw [hmax]
    exact k6 d hd1 hd2

lemma ciFold_good (P : MathPrims) (alpha maxLL : ℚ) :
    ∀ (lst : List (ℕ × ℕ × ℚ)) (acc : Option (ℕ × ℕ)),
      (acc = none ∨ ∃ l u, acc = some (l, u) ∧ 1 ≤ l ∧ l ≤ u) →
      (∀ y ∈ lst, 1 ≤ y.1) →
      (lst.foldl (LL.ciStep P alpha maxLL) acc = none ∨
        ∃ l u, lst.foldl (LL.ciStep P alpha maxLL) acc = some (l, u) ∧
          1 ≤ l ∧ l ≤ u) := by
  intro lst
  induction lst with
  | nil =>
    intro acc hacc _
    simpa using hacc
  | cons alt rest ih =>
    intro acc hacc hpos
    rw [List.foldl_cons]
    refine ih (LL.ciStep P alpha maxLL acc alt) ?_
      (fun y hy => hpos y (List.mem_cons_of_mem alt hy))
    have halt : 1 ≤ alt.1 := hpos alt (List.mem_cons_self alt rest)
    rw [LL.ciStep.eq_def]
    rcases hacc with hnone | ⟨l, u, hsome, hl1, hlu⟩
    · subst hnone
      split
      · exact Or.inr ⟨alt.1, alt.1, rfl, halt, le_refl _⟩
      · exact Or.inl rfl
    · subst hsome
      split
      · simp only []
        rw [if_neg (by omega)]
        by_cases hc1 : alt.1 < l
        · rw [if_pos hc1]
          exact Or.inr ⟨alt.1, u, rfl, halt, by omega⟩
        · rw [if_neg hc1]
          by_cases hc2 : u < alt.1
          · rw [if_pos hc2]
            exact Or.inr ⟨l, alt.1, rfl, hl1, by omega⟩
          · rw [if_neg hc2]
            exact Or.inr ⟨l, u, rfl, hl1, hlu⟩
      · exact Or.inr ⟨l, u, rfl, hl1, hlu⟩

lemma ciFold_widen (P : MathPrims) (alpha maxLL : ℚ) :
    ∀ (lst : List (ℕ × ℕ × ℚ)) (l u : ℕ), 1 ≤ l → l ≤ u →
      (∀ y ∈ lst, 1 ≤ y.1) →
      ∃ l' u', lst.foldl (LL.ciStep P alpha maxLL) (some (l, u)) = some (l', u') ∧
        l' ≤ l ∧ u ≤ u' ∧ 1 ≤ l' ∧ l' ≤ u' := by
  intro lst
  induction lst with
  | nil =>
    intro l u hl1 hlu _
    exact ⟨l, u, rfl, le_refl _, le_refl _, hl1, hlu⟩
  | cons alt rest ih =>
    intro l u hl1 hlu hpos
    have halt : 1 ≤ alt.1 := hpos alt (List.mem_cons_self alt rest)
    have hpos' : ∀ y ∈ rest, 1 ≤ y.1 :=
      fun y hy => hpos y (List.mem_cons_of_mem alt hy)
    rw [List.foldl_cons, LL.ciStep.eq_def]
    split
    · simp only []
      rw [if_neg (by omega)]
      by_cases hc1 : alt.1 < l
      · rw [if_pos hc1]
        obtain ⟨l', u', g1, g2, g3, g4, g5⟩ := ih alt.1 u halt (by omega) hpos'
        exact ⟨l', u', g1, by omega, g3, g4, g5⟩
      · rw [if_neg hc1]
        by_cases hc2 : u < alt.1
        · rw [if_pos hc2]
          obtain ⟨l', u', g1, g2, g3, g4, g5⟩ := ih l alt.1 hl1 (by omega) hpos'
          exact ⟨l', u', g1, g2, by omega, g4, g5⟩
        · rw [if_neg hc2]
          exact ih l u hl1 hlu hpos'
    · exact ih l u hl1 hlu hpos'

lemma ci_contains_failing (P : MathPrims) (alpha maxLL : ℚ)
    (alts : List (ℕ × ℕ × ℚ)) (x : ℕ × ℕ × ℚ) (hx : x ∈ alts)
    (hpos : ∀ y ∈ alts, 1 ≤ y.1)
    (hfail : LL.LL_ratio_test P maxLL x.2.2 alpha = false) :
    ∃ l u, LL.likelihood_ratio_CI P alts maxLL alpha = (some l, some u) ∧
      l ≤ x.1 ∧ x.1 ≤ u := by
  obtain ⟨pre, post, hsplit⟩ := List.append_of_mem hx
  subst hsplit
  have hposPre : ∀ y ∈ pre, 1 ≤ y.1 :=
    fun y hy => hpos y (by simp [hy])
  have hposPost : ∀ y ∈ post, 1 ≤ y.1 :=
    fun y hy => hpos y (by simp [hy])
  have hgood := ciFold_good P alpha maxLL pre none (Or.inl rfl) hposPre
  rw [LL.likelihood_ratio_CI, List.foldl_append, List.foldl_cons]
  have hx1 : 1 ≤ x.1 := hpos x (by simp)
  rcases hgood with hnone | ⟨l, u, hsome, hl1, hlu⟩
  · rw [hnone, LL.ciStep.eq_def, if_pos hfail]
    simp only []
    obtain ⟨l', u', g1, g2, g3, g4, g5⟩ :=
      ciFold_widen P alpha maxLL post x.1 x.1 hx1 (le_refl _) hposPost
    rw [g1]
    exact ⟨l', u', rfl, g2, g3⟩
  · rw [hsome, LL.ciStep.eq_def, if_pos hfail]
    simp only []
    rw [if_neg (by omega)]
    by_cases hc1 : x.1 < l
    · rw [if_pos hc1]
      obtain ⟨l', u', g1, g2, g3, g4, g5⟩ :=
        ciFold_widen P alpha maxLL post x.1 u hx1 (by omega) hposPost
      rw [g1]
      exact ⟨l', u', rfl, g2, by omega⟩
    · rw [if_neg hc1]
      by_cases hc2 : u < x.1
      · rw [if_pos hc2]
        obtain ⟨l', u', g1, g2, g3, g4, g5⟩ :=
          ciFold_widen P alpha maxLL post l x.1 hl1 (by omega) hposPost
        rw [g1]
        exact ⟨l', u', rfl, by omega, g3⟩
      · rw [if_neg hc2]
        obtain ⟨l', u', g1, g2, g3, g4, g5⟩ :=
          ciFold_widen P alpha maxLL post l u hl1 hlu hposPost
        rw [g1]
        exact ⟨l', u', rfl, by omega, by omega⟩

/-- C3 (amended): with `ci` requested and the null rejected, the CI bounds
are populated and contain the internal meiosis-count point estimate
`est.d + 1`; the stored `est.d` itself is the shifted external degree. -/
theorem C3_internal_degree_in_CI (P : MathPrims) (pair : String)
    (dob : Option ℤ × Option ℤ) (n : ℕ) (s : List ℚ) (h0 : LL.Background)
    (ha : LL.Relation) (max_d : ℕ) (alpha : ℚ) (est : LL.Estimate)
    (hok : LL.estimate_relation P pair dob n s h0 ha max_d alpha true = .ok est)
    (hrej : est.reject = true)
    (hcdf0 : alpha ≤ 1 - P.chi2cdf 0 2) :
    ∃ l u, est.lower_d = some l ∧ est.upper_d = some u ∧
      (l : ℤ) ≤ est.d + 1 ∧ est.d + 1 ≤ (u : ℤ) := by
  obtain ⟨maxAlt, hpm, halts, hes, hnull, hmax, hnp, hd, hp, hrej2, hlu, hrf, hrt⟩ :=
    estimate_relation_ok_inv P pair dob n s h0 ha max_d alpha true est hok
  rw [hrej] at hlu
  simp only [Bool.and_true, if_pos] at hlu
  have hmd : 1 ≤ max_d := by
    by_contra hc
    have h0d : max_d = 0 := by omega
    rw [h0d] at hpm
    simp [LL.altsList, LL.pyMax3] at hpm
  obtain ⟨maxAlt', hpm', k1, k2, k3, k4, k5, k6⟩ :=
    pyMax3_altsList_spec P ha n s max_d hmd
  have hsame : maxAlt = maxAlt' := by
    rw [hpm] at hpm'
    exact Option.some.inj hpm'
  subst hsame
  have hmem : maxAlt ∈ LL.altsList P ha n s max_d := by
    rw [LL.altsList]
    refine List.mem_map.mpr ⟨maxAlt.1, List.mem_range'_1.mpr ⟨k1, by omega⟩, ?_⟩
    rw [← k3, ← k4]
  have hpos : ∀ y ∈ LL.altsList P ha n s max_d, 1 ≤ y.1 := by
    intro y hy
    rw [LL.altsList] at hy
    obtain ⟨d, hdmem, hdy⟩ := List.mem_map.mp hy
    have := List.mem_range'_1.mp hdmem
    rw [← hdy]
    exact this.1
  have hfail : LL.LL_ratio_test P maxAlt.2.2 maxAlt.2.2 alpha = false := by
    have h0r : (-2 : ℚ) * maxAlt.2.2 + 2 * maxAlt.2.2 = 0 := by ring
    rw [LL.LL_ratio_test, LL.LL_ratio_p, h0r]
    exact decide_eq_false (not_lt.mpr hcdf0)
  obtain ⟨l, u, hCI, hxl, hxu⟩ := ci_contains_failing P alpha maxAlt.2.2
    (LL.altsList P ha n s max_d) maxAlt hmem hpos hfail
  rw [hCI] at hlu
  have hlow : est.lower_d = some l := congrArg Prod.fst hlu
  have hup : est.upper_d = some u := congrArg Prod.snd hlu
  refine ⟨l, u, hlow, hup, ?_, ?_⟩
  · rw [hd]
    omega
  · rw [hd]
    omega

/-- C4 (amended): for every `Estimate` that `estimate_relation` actually
returns, the relationship labels are populated iff the null was rejected.
(When rejection holds but the label lookup misses, the constructor raises
instead of returning an `Estimate` — see the counterexample.) -/
theorem C4_labels_iff_reject (P : MathPrims) (pair : String)
    (dob : Option ℤ × Option ℤ) (n : ℕ) (s : List ℚ) (h0 : LL.Background)
    (ha : LL.Relation) (max_d : ℕ) (alpha : ℚ) (ci : Bool) (est : LL.Estimate)
    (hok : LL.estimate_relation P pair dob n s h0 ha max_d alpha ci = .ok est) :
    (est.rel_est1 ≠ none ∧ est.rel_est2 ≠ none) ↔ est.reject = true := by
  obtain ⟨maxAlt, hpm, halts, hes, hnull, hmax, hnp, hd, hp, hrej, hlu, hrf, hrt⟩ :=
    estimate_relation_ok_inv P pair dob n s h0 ha max_d alpha ci est hok
  constructor
  · rintro ⟨h1, h2⟩
    by_contra hc
    have hfalse : est.reject = false := by
      revert hc
      cases est.reject <;> simp
    obtain ⟨e1, e2⟩ := hrf hfalse
    exact h1 e1
  · intro ht
    obtain ⟨r1, r2, e1, e2⟩ := hrt ht
    exact ⟨by simp [e1], by simp [e2]⟩

set_option maxRecDepth 4000 in
/-- C4 counterexample: with birth years 15 apart and estimated `d = 2`,
the likelihood ratio rejects the null (`p < alpha`) yet `estimate_relation`
raises a `TypeError` (unpacking the `None` relationship) instead of
returning an `Estimate` with populated labels. -/
theorem C4_reject_without_labels_counterexample :
    LL.LL_ratio_p stdPrims (LL.MLL stdPrims relW 1 [1] 2).2
      (LL.bgLL stdPrims bgW 1 [1]) 2 < 1 / 2 ∧
    LL.estimate_relation stdPrims "A:B" (some 0, some 15) 1 [1] bgW relW 2
      (1 / 2) false =
      .error "TypeError: cannot unpack non-iterable NoneType object" := by
  constructor
  · norm_num [LL.LL_ratio_p, LL.MLL, LL.MLLrun, LL.MLLstep, LL.LLr, LL.Np,
      LL.Na, LL.Sp, LL.Sa, LL.pOf, LL.Fa, LL.Fp, LL.bgLL, stdPrims, bgW,
      relW, LL.mkRelation, Nat.factorial, List.range_succ, List.range_zero]
  · norm_num +decide [LL.estimate_relation, LL.sortedCheck, LL.altsList,
      LL.MLL, LL.MLLrun, LL.MLLstep, LL.LLr, LL.Np, LL.Na, LL.Sp, LL.Sa,
      LL.pOf, LL.Fa, LL.Fp, LL.bgLL, LL.pyMax3, LL.LL_ratio_p,
      LL.mkEstimate, stdPrims, bgW, relW, LL.mkRelation, List.range',
      LL.splitCols, Nat.factorial, List.range_succ, List.range_zero,
      LL.potential_relationship, LL.relMapFun, Int.fdiv]

set_option maxRecDepth 4000 in
/-- Witness for C4 (amended) at a returned `Estimate` with `reject = false`
and both labels `None`. -/
theorem C4_labels_iff_reject_witness :
    LL.estimate_relation stdPrims "A:B" (none, none) 0 [] bgW relW 1
      (1 / 2) false = .ok estNoReject ∧
    ((estNoReject.rel_est1 ≠ none ∧ estNoReject.rel_est2 ≠ none) ↔
      estNoReject.reject = true) :=
  ⟨by
    norm_num +decide [LL.estimate_relation, LL.sortedCheck, LL.altsList,
      LL.MLL, LL.MLLrun, LL.MLLstep, LL.LLr, LL.Np, LL.Na, LL.Sp, LL.Sa,
      LL.pOf, LL.bgLL, LL.pyMax3, LL.LL_ratio_p, LL.mkEstimate, stdPrims,
      bgW, relW, LL.mkRelation, List.range', LL.splitCols, Nat.factorial,
      List.range_succ, List.range_zero, estNoReject],
    C4_labels_iff_reject stdPrims "A:B" (none, none) 0 [] bgW relW 1 (1 / 2)
      false estNoReject
      (by
        norm_num +decide [LL.estimate_relation, LL.sortedCheck, LL.altsList,
          LL.MLL, LL.MLLrun, LL.MLLstep, LL.LLr, LL.Np, LL.Na, LL.Sp, LL.Sa,
          LL.pOf, LL.bgLL, LL.pyMax3, LL.LL_ratio_p, LL.mkEstimate, stdPrims,
          bgW, relW, LL.mkRelation, List.range', LL.splitCols, Nat.factorial,
          List.range_succ, List.range_zero, estNoReject])⟩

set_option maxRecDepth 4000 in
/-- Witness for C2 at a concrete returned `Estimate`. -/
theorem C2_p_value_reject_and_degree_selection_witness :
    LL.estimate_relation stdPrims "A:B" (none, none) 0 [] bgW relW 1
      (1 / 2) false = .ok estNoReject ∧
    (estNoReject.reject = true ↔ estNoReject.p < 1 / 2) :=
  ⟨by
    norm_num +decide [LL.estimate_relation, LL.sortedCheck, LL.altsList,
      LL.MLL, LL.MLLrun, LL.MLLstep, LL.LLr, LL.Np, LL.Na, LL.Sp, LL.Sa,
      LL.pOf, LL.bgLL, LL.pyMax3, LL.LL_ratio_p, LL.mkEstimate, stdPrims,
      bgW, relW, LL.mkRelation, List.range', LL.splitCols, Nat.factorial,
      List.range_succ, List.range_zero, estNoReject],
    (C2_p_value_reject_and_degree_selection stdPrims "A:B" (none, none) 0 []
      bgW relW 1 (1 / 2) false estNoReject
      (by
        norm_num +decide [LL.estimate_relation, LL.sortedCheck, LL.altsList,
          LL.MLL, LL.MLLrun, LL.MLLstep, LL.LLr, LL.Np, LL.Na, LL.Sp, LL.Sa,
          LL.pOf, LL.bgLL, LL.pyMax3, LL.LL_ratio_p, LL.mkEstimate, stdPrims,
          bgW, relW, LL.mkRelation, List.range', LL.splitCols, Nat.factorial,
          List.range_succ, List.range_zero, estNoReject])).2.1⟩

set_option maxRecDepth 4000 in
/-- C3 counterexample: a run with `ci = True` and a rejected null where the
confidence interval is `[2, 2]` (internal meiosis units) while the stored
point estimate is the shifted degree `1`, which lies outside the stored
interval. -/
theorem C3_stored_degree_outside_CI_counterexample :
    LL.estimate_relation stdPrims "A:B" (none, none) 1 [1] bgW relW 2
      (1 / 2) true = .ok estCIrun ∧
    estCIrun.d = 1 ∧ estCIrun.lower_d = some 2 ∧ estCIrun.upper_d = some 2 ∧
    ¬((2 : ℤ) ≤ estCIrun.d) := by
  refine ⟨?_, rfl, rfl, rfl, by decide⟩
  norm_num +decide [LL.estimate_relation, LL.sortedCheck, LL.altsList,
    LL.MLL, LL.MLLrun, LL.MLLstep, LL.LLr, LL.Np, LL.Na, LL.Sp, LL.Sa,
    LL.pOf, LL.Fa, LL.Fp, LL.bgLL, LL.pyMax3, LL.LL_ratio_p, LL.mkEstimate,
    stdPrims, bgW, relW, LL.mkRelation, List.range', LL.splitCols,
    Nat.factorial, List.range_succ, List.range_zero,
    LL.likelihood_ratio_CI, LL.ciStep, LL.LL_ratio_test,
    LL.potential_relationship, LL.relMapFun, Int.fdiv, estCIrun]

set_option maxRecDepth 4000 in
/-- Witness for C3 (amended) at the same concrete run: the internal
estimate `est.d + 1 = 2` lies inside the stored interval `[2, 2]`. -/
theorem C3_internal_degree_in_CI_witness :
    (LL.estimate_relation stdPrims "A:B" (none, none) 1 [1] bgW relW 2
      (1 / 2) true = .ok estCIrun ∧
     estCIrun.reject = true ∧ (1 / 2 : ℚ) ≤ 1 - stdPrims.chi2cdf 0 2) ∧
    (∃ l u, estCIrun.lower_d = some l ∧ estCIrun.upper_d = some u ∧
      (l : ℤ) ≤ estCIrun.d + 1 ∧ estCIrun.d + 1 ≤ (u : ℤ)) :=
  ⟨⟨by
      norm_num +decide [LL.estimate_relation, LL.sortedCheck, LL.altsList,
        LL.MLL, LL.MLLrun, LL.MLLstep, LL.LLr, LL.Np, LL.Na, LL.Sp, LL.Sa,
        LL.pOf, LL.Fa, LL.Fp, LL.bgLL, LL.pyMax3, LL.LL_ratio_p,
        LL.mkEstimate, stdPrims, bgW, relW, LL.mkRelation, List.range',
        LL.splitCols, Nat.factorial, List.range_succ, List.range_zero,
        LL.likelihood_ratio_CI, LL.ciStep, LL.LL_ratio_test,
        LL.potential_relationship, LL.relMapFun, Int.fdiv, estCIrun],
    rfl, by norm_num [stdPrims]⟩,
    C3_internal_degree_in_CI stdPrims "A:B" (none, none) 1 [1] bgW relW 2
      (1 / 2) estCIrun
      (by
        norm_num +decide [LL.estimate_relation, LL.sortedCheck, LL.altsList,
          LL.MLL, LL.MLLrun, LL.MLLstep, LL.LLr, LL.Np, LL.Na, LL.Sp, LL.Sa,
          LL.pOf, LL.Fa, LL.Fp, LL.bgLL, LL.pyMax3, LL.LL_ratio_p,
          LL.mkEstimate, stdPrims, bgW, relW, LL.mkRelation, List.range',
          LL.splitCols, Nat.factorial, List.range_succ, List.range_zero,
          LL.likelihood_ratio_CI, LL.ciStep, LL.LL_ratio_test,
          LL.potential_relationship, LL.relMapFun, Int.fdiv, estCIrun])
      rfl (by norm_num [stdPrims])⟩

/-- C7 counterexample: with birth years 15 apart (`gen_bin` lands on the
floor-division boundary) `potential_relationship(2, A, B, 0, 15)` returns
`None` while the swapped call returns the Sibling pair, so labelling is not
symmetric under swapping the individuals. -/
theorem C7_label_symmetry_counterexample :
    LL.potential_relationship stdPrims.numToWords 2 "A" "B" 0 15 = none ∧
    LL.potential_relationship stdPrims.numToWords 2 "B" "A" 15 0 =
      some ("Sibling", "Sibling") := by decide

/-- Floor division mirror: when 30 does not divide `x`,
`(30 - x) // 30 = -(x // 30)`. -/
lemma fdiv_neg_of_not_dvd (x : ℤ) (h : ¬ ((30 : ℤ) ∣ x)) :
    Int.fdiv (30 - x) 30 = - Int.fdiv x 30 := by
  rw [Int.fdiv_eq_ediv _ (by norm_num), Int.fdiv_eq_ediv _ (by norm_num)]
  omega

/-- C7 (amended): relationship labelling is symmetric under swapping the
two individuals whenever `y2 - y1 + 15` is not a multiple of 30 (away from
the generation-bin boundary): the two calls return `None` together; when
they return labels, the pair is returned with sides swapped, except in the
combined odd-bin case (`gen_bin` odd and `d < 5`) where both calls return
one combined label naming the same two relationships, possibly in the
opposite order. -/
theorem C7_label_symmetry_amended (w : ℕ → String) (d : ℕ) (A B : String) (y1 y2 : ℤ)
    (hnd : ¬ ((30 : ℤ) ∣ (y2 - y1 + 15))) :
    (LL.potential_relationship w d A B y1 y2 = none ↔
      LL.potential_relationship w d B A y2 y1 = none) ∧
    (∀ a b, LL.potential_relationship w d A B y1 y2 = some (a, b) →
      LL.potential_relationship w d B A y2 y1 = some (b, a) ∨
      (a = b ∧ ∃ x y, a = x ++ " or " ++ y ∧
        LL.potential_relationship w d B A y2 y1 =
          some (y ++ " or " ++ x, y ++ " or " ++ x))) := by
  by_cases hd0 : d = 0
  · subst hd0
    simp only [LL.potential_relationship, if_pos, neg_zero]
    rcases h : LL.relMapFun w 0 0 with _ | a
    · simp
    · simp only [Int.zero_emod]
      norm_num
  · have hgneg : (if d = 0 then (0 : ℤ) else Int.fdiv (y1 - y2 + 15) 30) =
        -(if d = 0 then (0 : ℤ) else Int.fdiv (y2 - y1 + 15) 30) := by
      rw [if_neg hd0, if_neg hd0]
      have h30 : y1 - y2 + 15 = 30 - (y2 - y1 + 15) := by ring
      rw [h30]
      exact fdiv_neg_of_not_dvd _ hnd
    simp only [LL.potential_relationship, hgneg, neg_neg]
    set g : ℤ := if d = 0 then (0 : ℤ) else Int.fdiv (y2 - y1 + 15) 30 with hgdef
    rcases h1 : LL.relMapFun w d g with _ | a <;>
      rcases h2 : LL.relMapFun w d (-g) with _ | b
    · simp
    · simp
    · simp
    · simp only []
      have hpar : (-g) % 2 = 1 ↔ g % 2 = 1 := by omega
      by_cases hodd : g % 2 = 1 ∧ d < 5
      · rw [if_pos hodd, if_pos (by exact ⟨hpar.mpr hodd.1, hodd.2⟩)]
        constructor
        · simp
        · intro a' b' heq
          have ha' : a' = a ++ " or " ++ b := (Prod.mk.inj (Option.some.inj heq)).1.symm
          have hb' : b' = a ++ " or " ++ b := (Prod.mk.inj (Option.some.inj heq)).2.symm
          right
          exact ⟨by rw [ha', hb'], a, b, ha', rfl⟩
      · rw [if_neg hodd, if_neg (by
          intro hc
          exact hodd ⟨hpar.mp hc.1, hc.2⟩)]
        constructor
        · simp
        · intro a' b' heq
          have ha' : a' = a := (Prod.mk.inj (Option.some.inj heq)).1.symm
          have hb' : b' = b := (Prod.mk.inj (Option.some.inj heq)).2.symm
          left
          rw [ha', hb']

/-- Witness for C7 (amended) at `d = 1`, birth years 0 and 31. -/
theorem C7_label_symmetry_amended_witness :
    (¬ ((30 : ℤ) ∣ (31 - 0 + 15))) ∧
    ((LL.potential_relationship stdPrims.numToWords 1 "A" "B" 0 31 = none ↔
      LL.potential_relationship stdPrims.numToWords 1 "B" "A" 31 0 = none) ∧
    (∀ a b, LL.potential_relationship stdPrims.numToWords 1 "A" "B" 0 31 =
        some (a, b) →
      LL.potential_relationship stdPrims.numToWords 1 "B" "A" 31 0 =
        some (b, a) ∨
      (a = b ∧ ∃ x y, a = x ++ " or " ++ y ∧
        LL.potential_relationship stdPrims.numToWords 1 "B" "A" 31 0 =
          some (y ++ " or " ++ x, y ++ " or " ++ x)))) :=
  ⟨by decide, C7_label_symmetry_amended stdPrims.numToWords 1 "A" "B" 0 31 (by decide)⟩

/-- The flanking buffer is positive. -/
lemma bpos : (0 : ℤ) < Mask.b := by norm_num [Mask.b]

/-- Round-half-even is the identity on integers. -/
lemma rhe_intCast (k : ℤ) : Mask.rhe (k : ℚ) = k := by
  rw [Mask.rhe]
  norm_num

/-- Python `round(x, 2)` is idempotent on exact rationals. -/
lemma pyRound2_idem (q : ℚ) : Mask.pyRound2 (Mask.pyRound2 q) = Mask.pyRound2 q := by
  rw [Mask.pyRound2, Mask.pyRound2]
  have : ((Mask.rhe (q * 100) : ℚ) / 100) * 100 = (Mask.rhe (q * 100) : ℚ) := by
    field_simp
  rw [this, rhe_intCast]

/-- A region leaves a segment untouched iff all four guards fail; the
guards depend only on the coordinates. -/
lemma applyRegion_eq_none_iff (s : Parser.Seg) (r : Mask.Region) :
    Mask.applyRegion s r = none ↔
      ¬(s.bpStart > r.lo - Mask.b ∧ s.bpEnd < r.hi + Mask.b) ∧
      ¬(s.bpStart ≤ r.lo - Mask.b ∧ s.bpEnd ≥ r.hi + Mask.b) ∧
      ¬(r.lo ≤ s.bpStart ∧ s.bpStart ≤ r.hi ∧ r.hi < s.bpEnd) ∧
      ¬(r.hi ≥ s.bpEnd ∧ s.bpEnd ≥ r.lo ∧ r.lo > s.bpStart) := by
  rw [Mask.applyRegion]
  split_ifs <;> simp [*]

/-- If a region `r'` did not match the original segment and the segment was
only changed by a later region `rm` (truncation shapes or unchanged
coordinates), then `r'` still does not match, by the `GoodPair` separation
facts of the table. -/
lemma applyRegion_none_persists (r' rm : Mask.Region) (sg s' : Parser.Seg)
    (hg : Mask.GoodPair r' rm) (hnone : Mask.applyRegion sg r' = none)
    (hshape : (s'.bpStart = sg.bpStart ∧ s'.bpEnd = sg.bpEnd) ∨
      (s'.bpStart = rm.hi ∧ s'.bpEnd = sg.bpEnd ∧ rm.lo ≤ sg.bpStart ∧
        sg.bpStart ≤ rm.hi ∧ rm.hi + Mask.b ≤ sg.bpEnd) ∨
      (s'.bpStart = sg.bpStart ∧ s'.bpEnd = rm.lo ∧
        sg.bpStart ≤ rm.lo - Mask.b ∧ rm.lo ≤ sg.bpEnd ∧ sg.bpEnd ≤ rm.hi)) :
    Mask.applyRegion s' r' = none := by
  rw [applyRegion_eq_none_iff] at hnone ⊢
  obtain ⟨g1, g2, g3, g4⟩ := hg
  have hb := bpos
  rcases hshape with ⟨e1, e2⟩ | ⟨e1, e2, f1, f2, f3⟩ | ⟨e1, e2, f1, f2, f3⟩ <;>
    rw [e1, e2] <;> omega

/-- The region loop preserves the chromosome and changes the coordinates
only into one of the two truncation shapes (start moved to a region's
high end with the end at least a buffer beyond, or end moved to a region's
low end with the start at least a buffer before). -/
lemma applyRegions_shape (rs : List Mask.Region) (sg : Parser.Seg) :
    (Mask.applyRegions sg rs).chrom = sg.chrom ∧
    (((Mask.applyRegions sg rs).bpStart = sg.bpStart ∧
        (Mask.applyRegions sg rs).bpEnd = sg.bpEnd) ∨
      (∃ rm ∈ rs, (Mask.applyRegions sg rs).bpStart = rm.hi ∧
        (Mask.applyRegions sg rs).bpEnd = sg.bpEnd ∧ rm.lo ≤ sg.bpStart ∧
        sg.bpStart ≤ rm.hi ∧ rm.hi + Mask.b ≤ sg.bpEnd) ∨
      (∃ rm ∈ rs, (Mask.applyRegions sg rs).bpStart = sg.bpStart ∧
        (Mask.applyRegions sg rs).bpEnd = rm.lo ∧
        sg.bpStart ≤ rm.lo - Mask.b ∧ rm.lo ≤ sg.bpEnd ∧
        sg.bpEnd ≤ rm.hi)) := by
  have hb := bpos
  induction rs with
  | nil => exact ⟨rfl, Or.inl ⟨rfl, rfl⟩⟩
  | cons r rest ih =>
    cases happly : Mask.applyRegion sg r with
    | none =>
      have hrw : Mask.applyRegions sg (r :: rest) = Mask.applyRegions sg rest := by
        simp [Mask.applyRegions, happly]
      rw [hrw]
      obtain ⟨hc, hsh⟩ := ih
      refine ⟨hc, ?_⟩
      rcases hsh with hid | ⟨rm, hrm, hh⟩ | ⟨rm, hrm, hh⟩
      · exact Or.inl hid
      · exact Or.inr (Or.inl ⟨rm, List.mem_cons_of_mem r hrm, hh⟩)
      · exact Or.inr (Or.inr ⟨rm, List.mem_cons_of_mem r hrm, hh⟩)
    | some s1 =>
      have hrw : Mask.applyRegions sg (r :: rest) = s1 := by
        simp [Mask.applyRegions, happly]
      rw [hrw]
      rw [Mask.applyRegion] at happly
      split_ifs at happly with h1 h2 h3 h4
      · have hs1 := Option.some.inj happly
        rw [← hs1]
        exact ⟨rfl, Or.inl ⟨rfl, rfl⟩⟩
      · have hs1 := Option.some.inj happly
        rw [← hs1]
        exact ⟨rfl, Or.inl ⟨rfl, rfl⟩⟩
      · have hs1 := Option.some.inj happly
        have hEb : r.hi + Mask.b ≤ sg.bpEnd := by omega
        rw [← hs1]
        exact ⟨rfl, Or.inr (Or.inl ⟨r, List.mem_cons_self r rest, rfl, rfl,
          h3.1, h3.2.1, hEb⟩)⟩
      · have hs1 := Option.some.inj happly
        have hSb : sg.bpStart ≤ r.lo - Mask.b := by omega
        rw [← hs1]
        exact ⟨rfl, Or.inr (Or.inr ⟨r, List.mem_cons_self r rest, rfl, rfl,
          hSb, h4.2.1, h4.1⟩)⟩

/-- A segment adjusted by a region (other than by the span case) is a fixed
point of that region: the zeroing case re-zeroes, and the truncation cases
recompute ratio `1` and re-round an already-rounded length. -/
lemma applyRegion_refix (r : Mask.Region) (sg s1 : Parser.Seg)
    (hlh : r.lo ≤ r.hi) (hmatch : Mask.applyRegion sg r = some s1)
    (hns : ¬ Mask.spans s1 r) :
    Mask.applyRegion s1 r = some s1 := by
  have hb := bpos
  rw [Mask.applyRegion] at hmatch
  split_ifs at hmatch with h1 h2 h3 h4
  · obtain rfl : ({ sg with length := 0 } : Parser.Seg) = s1 :=
      Option.some.inj hmatch
    rw [Mask.applyRegion, if_pos (show _ ∧ _ from h1)]
  · obtain rfl : ({ sg with length := sg.length - r.cm } : Parser.Seg) = s1 :=
      Option.some.inj hmatch
    exact absurd ⟨h2.1, h2.2⟩ hns
  · obtain rfl := Option.some.inj hmatch
    have hEb : r.hi + Mask.b ≤ sg.bpEnd := by
      push_neg at h1
      omega
    have hpos : (0 : ℤ) < sg.bpEnd - r.hi := by omega
    have hne : ((sg.bpEnd - r.hi : ℤ) : ℚ) ≠ 0 := by
      exact_mod_cast (by omega : (sg.bpEnd - r.hi : ℤ) ≠ 0)
    rw [Mask.applyRegion]
    rw [if_neg (by simp only []; omega), if_neg (by simp only []; omega),
      if_pos (by simp only []; omega)]
    simp only []
    rw [div_self hne, mul_one, pyRound2_idem]
  · obtain rfl := Option.some.inj hmatch
    have hSb : sg.bpStart ≤ r.lo - Mask.b := by
      push_neg at h1
      omega
    have hne : ((r.lo - sg.bpStart : ℤ) : ℚ) ≠ 0 := by
      exact_mod_cast (by omega : (r.lo - sg.bpStart : ℤ) ≠ 0)
    rw [Mask.applyRegion]
    rw [if_neg (by simp only []; omega), if_neg (by simp only []; omega),
      if_neg (by simp only []; omega), if_pos (by simp only []; omega)]
    simp only []
    rw [div_self hne, mul_one, pyRound2_idem]

/-- Per-segment idempotence of the region loop over a geometrically good
region list, provided the result does not span any buffered region. -/
lemma applyRegions_idem (rs : List Mask.Region)
    (hpw : List.Pairwise Mask.GoodPair rs)
    (hlh : ∀ r ∈ rs, r.lo ≤ r.hi) :
    ∀ sg : Parser.Seg, (∀ r ∈ rs, ¬ Mask.spans (Mask.applyRegions sg rs) r) →
      Mask.applyRegions (Mask.applyRegions sg rs) rs =
        Mask.applyRegions sg rs := by
  induction rs with
  | nil =>
    intro sg _
    rfl
  | cons r rest ih =>
    intro sg hspan
    have hpw' := (List.pairwise_cons.mp hpw).2
    have hgr := (List.pairwise_cons.mp hpw).1
    have hlh' : ∀ r' ∈ rest, r'.lo ≤ r'.hi :=
      fun r' hr' => hlh r' (List.mem_cons_of_mem r hr')
    cases happly : Mask.applyRegion sg r with
    | none =>
      have hrw : Mask.applyRegions sg (r :: rest) = Mask.applyRegions sg rest := by
        simp [Mask.applyRegions, happly]
      rw [hrw] at hspan ⊢
      obtain ⟨hchrom, hshape⟩ := applyRegions_shape rest sg
      have hnone' : Mask.applyRegion (Mask.applyRegions sg rest) r = none := by
        rcases hshape with hid | ⟨rm, hrm, hh⟩ | ⟨rm, hrm, hh⟩
        · rw [applyRegion_eq_none_iff] at happly ⊢
          rw [hid.1, hid.2]
          exact happly
        · exact applyRegion_none_persists r rm sg _ (hgr rm hrm) happly
            (Or.inr (Or.inl hh))
        · exact applyRegion_none_persists r rm sg _ (hgr rm hrm) happly
            (Or.inr (Or.inr hh))
      have hstep : Mask.applyRegions (Mask.applyRegions sg rest) (r :: rest) =
          Mask.applyRegions (Mask.applyRegions sg rest) rest := by
        simp [Mask.applyRegions, hnone']
      rw [hstep]
      exact ih hpw' hlh' sg (fun r' hr' => hspan r' (List.mem_cons_of_mem r hr'))
    | some s1 =>
      have hrw : Mask.applyRegions sg (r :: rest) = s1 := by
        simp [Mask.applyRegions, happly]
      rw [hrw] at hspan ⊢
      have hs1 : Mask.applyRegion s1 r = some s1 :=
        applyRegion_refix r sg s1 (hlh r (List.mem_cons_self r rest)) happly
          (hspan r (List.mem_cons_self r rest))
      simp [Mask.applyRegions, hs1]

/-- Every per-chromosome list of the masked table satisfies the `GoodPair`
separation facts and has ordered bounds. -/
lemma goodRegions : ∀ c : ℤ, List.Pairwise Mask.GoodPair (Mask.maskedRegions c) ∧
    ∀ r ∈ Mask.maskedRegions c, r.lo ≤ r.hi := by
  intro c
  rw [Mask.maskedRegions]
  split
  · rename_i hc
    obtain ⟨hc0, hc23⟩ := hc
    interval_cases c <;> exact ⟨by decide, by decide⟩
  · simp

/-- C5 (amended): `mask_input_segs` is idempotent on every segment list
whose masked output contains no segment spanning an entire buffered masked
region (the span case subtracts the region's mean cM on every pass, which
the counterexample exhibits); chromosome ids must be in the table's range,
where the model is faithful to the source. -/
theorem C5_mask_idempotent_on_nonspanning (segs : List Parser.Seg) (t : ℚ)
    (h23 : ∀ sg ∈ segs, 0 ≤ sg.chrom ∧ sg.chrom < 23)
    (hspan : ∀ sg ∈ Mask.mask_input_segs segs t,
      ∀ r ∈ Mask.maskedRegions sg.chrom, ¬ Mask.spans sg r) :
    Mask.mask_input_segs (Mask.mask_input_segs segs t) t =
      Mask.mask_input_segs segs t := by
  have hfix : ∀ x ∈ Mask.mask_input_segs segs t,
      Mask.applyRegions x (Mask.maskedRegions x.chrom) = x := by
    intro x hx
    have hx' := hx
    rw [Mask.mask_input_segs] at hx'
    obtain ⟨hx1, hx2⟩ := List.mem_filter.mp hx'
    obtain ⟨sg, hsg, hmsg⟩ := List.mem_map.mp hx1
    have hchrom : x.chrom = sg.chrom := by
      rw [← hmsg]
      exact (applyRegions_shape _ sg).1
    rw [hchrom, ← hmsg]
    exact applyRegions_idem (Mask.maskedRegions sg.chrom)
      (goodRegions sg.chrom).1 (goodRegions sg.chrom).2 sg
      (by
        intro r hr
        have := hspan x hx
        rw [hchrom] at this
        rw [← hmsg] at this
        exact this r hr)
  conv_lhs => rw [Mask.mask_input_segs]
  rw [List.map_congr_left (g := id) hfix, List.map_id]
  rw [List.filter_eq_self.mpr]
  intro x hx
  rw [Mask.mask_input_segs] at hx
  exact (List.mem_filter.mp hx).2

/-- C5 counterexample: a chromosome-9 segment spanning the whole buffered
masked region loses 8.15 cM on the first pass and another 8.15 cM on the
second, so masking twice differs from masking once. -/
theorem C5_not_idempotent_counterexample :
    Mask.mask_input_segs [sg9] (5 / 2) =
      [⟨9, 30000000, 80000000, 4185 / 100⟩] ∧
    Mask.mask_input_segs (Mask.mask_input_segs [sg9] (5 / 2)) (5 / 2) =
      [⟨9, 30000000, 80000000, 337 / 10⟩] ∧
    Mask.mask_input_segs (Mask.mask_input_segs [sg9] (5 / 2)) (5 / 2) ≠
      Mask.mask_input_segs [sg9] (5 / 2) := by
  have h1 : Mask.mask_input_segs [sg9] (5 / 2) =
      [⟨9, 30000000, 80000000, 4185 / 100⟩] := by
    norm_num [Mask.mask_input_segs, Mask.applyRegions, Mask.applyRegion,
      Mask.maskedRegions, Mask.maskedTable, Mask.b, sg9, List.filter]
  have h2 : Mask.mask_input_segs [(⟨9, 30000000, 80000000, 4185 / 100⟩ : Parser.Seg)] (5 / 2) =
      [⟨9, 30000000, 80000000, 337 / 10⟩] := by
    norm_num [Mask.mask_input_segs, Mask.applyRegions, Mask.applyRegion,
      Mask.maskedRegions, Mask.maskedTable, Mask.b, List.filter]
  refine ⟨h1, by rw [h1, h2], ?_⟩
  rw [h1, h2]
  intro hc
  simp only [List.cons.injEq, Parser.Seg.mk.injEq, and_true, true_and] at hc
  norm_num at hc

/-- Witness for C5 (amended): a truncated chromosome-9 segment whose masked
output is a fixed point of a second application. -/
theorem C5_mask_idempotent_on_nonspanning_witness :
    ((∀ sg ∈ [maskW], 0 ≤ sg.chrom ∧ sg.chrom < 23) ∧
     (∀ sg ∈ Mask.mask_input_segs [maskW] (5 / 2),
       ∀ r ∈ Mask.maskedRegions sg.chrom, ¬ Mask.spans sg r)) ∧
    Mask.mask_input_segs (Mask.mask_input_segs [maskW] (5 / 2)) (5 / 2) =
      Mask.mask_input_segs [maskW] (5 / 2) := by
  have hout : Mask.mask_input_segs [maskW] (5 / 2) =
      [⟨9, 72605261, 92605261, 379 / 100⟩] := by
    norm_num [Mask.mask_input_segs, Mask.applyRegions, Mask.applyRegion,
      Mask.maskedRegions, Mask.maskedTable, Mask.b, maskW, Mask.pyRound2,
      Mask.rhe, List.filter]
  have hsp : ∀ sg ∈ Mask.mask_input_segs [maskW] (5 / 2),
      ∀ r ∈ Mask.maskedRegions sg.chrom, ¬ Mask.spans sg r := by
    rw [hout]
    intro sg hsg r hr
    simp only [List.mem_singleton] at hsg
    subst hsg
    have hreg : Mask.maskedRegions
        ((⟨9, 72605261, 92605261, 379 / 100⟩ : Parser.Seg).chrom) =
        [⟨38293483, 72605261, 8.15⟩] := rfl
    rw [hreg] at hr
    simp only [List.mem_singleton] at hr
    subst hr
    decide
  exact ⟨⟨by norm_num [maskW], hsp⟩,
    C5_mask_idempotent_on_nonspanning [maskW] (5 / 2) (by norm_num [maskW]) hsp⟩
